import Mathlib

/-!
Verification of the Gomokrust board-game engine (src/board.rs, src/mcts.rs,
src/utils.rs) against its natural-language specification.

The Rust code is shallowly embedded: the padded `ndarray` grid becomes a total
function `BaseBoardLocation → SquareState` (the code never reads outside the
padded grid except through the explicitly modelled out-of-bounds panic in
`make_action`); the `IndexSet` of legal actions becomes a `Finset Action`
(iteration order is abstracted; no claim below depends on it); the precomputed
`action_to_check_indices` HashMap, which depends only on `size` and
`n_in_a_row`, becomes the pure function `checkLines` guarded by the domain
check `action_to_check_indices`; Rust `panic!`/failed `expect`/out-of-bounds
indexing is a distinguished `panic` result, and `Err(())` is `invalidMove`.
Move strings are modelled at the byte level (`List ℕ`), since Rust slices
`String`s by bytes and panics on non-UTF-8-boundary slices.
-/

namespace Gomoku

inductive Player where
  | black
  | white
deriving DecidableEq, Repr

def Player.opposite : Player → Player
  | .white => .black
  | .black => .white

inductive SquareState where
  | occupied (p : Player)
  | vacant
deriving DecidableEq, Repr

inductive Outcome where
  | winner (p : Player)
  | draw
deriving DecidableEq, Repr

abbrev Action := ℕ × ℕ

abbrev BaseBoardLocation := ℕ × ℕ

/-- The `Board` struct of src/board.rs.  The `base_board` (a padded
`size + 2(n_in_a_row−1)` square grid of `SquareState`) is modelled as a total
function; all reads the code actually performs stay inside the padded grid,
and the one read that Rust bounds-checks dynamically (`is_occupied` inside
`make_action`) is modelled with an explicit bounds test. -/
structure Board where
  size : ℕ
  n_in_a_row : ℕ
  turn : Player
  base_board : BaseBoardLocation → SquareState
  outcome : Option Outcome
  num_stones_placed : ℕ
  legal_actions_indexset : Finset Action

/-- All actions of the unpadded `size × size` board, i.e. the contents of
`initialize_legal_actions_indexset` (row-major double loop over `0..size`). -/
def allActions (size : ℕ) : Finset Action := Finset.range size ×ˢ Finset.range size

/-- `Board::new(size, n_in_a_row)`.  The Rust constructor asserts
`2 ≤ n_in_a_row ≤ size ≤ 26`; boards violating the assertions never exist,
which the `Reachable` predicate records. -/
def Board.new (size n_in_a_row : ℕ) : Board where
  size := size
  n_in_a_row := n_in_a_row
  turn := .black
  base_board := fun _ => .vacant
  outcome := none
  num_stones_placed := 0
  legal_actions_indexset := allActions size

def Board.is_game_over (b : Board) : Bool := b.outcome.isSome

def Board.base_board_padding (b : Board) : ℕ := b.n_in_a_row - 1

def Board.base_board_size (b : Board) : ℕ := b.size + b.base_board_padding * 2

def Board.action_to_base_board_location (b : Board) (a : Action) : BaseBoardLocation :=
  (a.1 + b.base_board_padding, a.2 + b.base_board_padding)

def Board.action_to_flat_index (b : Board) (a : Action) : ℕ := a.1 * b.size + a.2

def Board.is_occupied (b : Board) (loc : BaseBoardLocation) : Bool :=
  b.base_board loc ≠ SquareState.vacant

def Board.is_occupied_by (b : Board) (loc : BaseBoardLocation) (p : Player) : Bool :=
  b.base_board loc = SquareState.occupied p

/-- The four precomputed check lines (horizontal, vertical, forward slash,
backward slash) of `initialize_action_to_check_locations` for one action.
Rust computes `(coord as i32 ± offset) as usize` and then adds the padding
with `usize` arithmetic; since `|offset| ≤ padding = k−1`, the composite is
exactly `(coord ± offset) + padding` evaluated in `ℤ` (never negative), which
is what `Int.toNat` below yields. -/
def checkLines (k : ℕ) (a : Action) : List (List BaseBoardLocation) :=
  let pad : ℤ := (k : ℤ) - 1
  let offsets : List ℤ := (List.range (2 * (k - 1) + 1)).map (fun i => (i : ℤ) - ((k : ℤ) - 1))
  let horizontal := offsets.map (fun o => (((a.1 : ℤ) + pad).toNat, ((a.2 : ℤ) + o + pad).toNat))
  let vertical := offsets.map (fun o => (((a.1 : ℤ) + o + pad).toNat, ((a.2 : ℤ) + pad).toNat))
  let forward_slash :=
    offsets.map (fun o => (((a.1 : ℤ) - o + pad).toNat, ((a.2 : ℤ) + o + pad).toNat))
  let backward_slash :=
    offsets.map (fun o => (((a.1 : ℤ) - o + pad).toNat, ((a.2 : ℤ) - o + pad).toNat))
  [horizontal, vertical, forward_slash, backward_slash]

/-- The `action_to_check_indices` HashMap lookup: populated exactly for the
actions of the `size × size` board, so the lookup fails (and the Rust
`expect` panics) outside that range. -/
def Board.action_to_check_indices (b : Board) (a : Action) :
    Option (List (List BaseBoardLocation)) :=
  if a.1 < b.size ∧ a.2 < b.size then some (checkLines b.n_in_a_row a) else none

/-- Rust `slice.windows(k)`: all contiguous subslices of length `k`;
empty when `k > length`. -/
def windowsList {α : Type} (k : ℕ) (l : List α) : List (List α) :=
  (List.range (l.length + 1 - k)).map (fun i => (l.drop i).take k)

/-- `Board::locations_contain_win`: some window of `n_in_a_row` consecutive
locations is entirely occupied by the player to move. -/
def Board.locations_contain_win (b : Board) (locations : List BaseBoardLocation) : Bool :=
  (windowsList b.n_in_a_row locations).any fun w =>
    w.all fun loc => b.is_occupied_by loc b.turn

/-- The body of `Board::check_outcome` once the precomputed check lines have
been fetched. -/
def Board.check_outcome_with (b : Board) (check_locations : List (List BaseBoardLocation)) :
    Option Outcome :=
  if check_locations.any (fun locations => b.locations_contain_win locations) then
    some (.winner b.turn)
  else if b.num_stones_placed = b.size * b.size then
    some .draw
  else
    none

/-- `Board::check_outcome`; the outer `none` is the panic of the `expect` on
the precomputed table for an out-of-range action. -/
def Board.check_outcome (b : Board) (a : Action) : Option (Option Outcome) :=
  match b.action_to_check_indices a with
  | none => none
  | some check_locations => some (b.check_outcome_with check_locations)

/-- Result of `Board::make_action`: `panic` for the unrecoverable paths
(game already over; `ndarray` index out of the padded grid; missing
precomputed check lines), `invalidMove` for `Err(())`, `ok` with the updated
board for `Ok(action)`. -/
inductive StepResult where
  | panic
  | invalidMove
  | ok (b : Board)

/-- The mutations `make_action` performs before `check_outcome` runs: place
the stone, remove the action from the legal set, increment the counter. -/
def Board.place_stone (b : Board) (a : Action) : Board :=
  { b with
    base_board := Function.update b.base_board
      (b.action_to_base_board_location a) (.occupied b.turn)
    legal_actions_indexset := b.legal_actions_indexset.erase a
    num_stones_placed := b.num_stones_placed + 1 }

/-- `Board::make_action`. -/
def Board.make_action (b : Board) (a : Action) : StepResult :=
  if b.is_game_over then .panic
  else
    let loc := b.action_to_base_board_location a
    if loc.1 < b.base_board_size ∧ loc.2 < b.base_board_size then
      if b.is_occupied loc then .invalidMove
      else
        let b1 := b.place_stone a
        match b1.check_outcome a with
        | none => .panic
        | some oc =>
          .ok { b1 with
                outcome := oc
                turn := if oc.isNone then b1.turn.opposite else b1.turn }
    else .panic

def Board.legal_actions (b : Board) : Finset Action := b.legal_actions_indexset

/-- Boards reachable from `Board::new` by successfully applied in-range
actions (the constructor's assertions are the hypotheses of `base`). -/
inductive Reachable (size k : ℕ) : Board → Prop where
  | base : 2 ≤ k → k ≤ size → size ≤ 26 → Reachable size k (Board.new size k)
  | step {b b2 : Board} (a : Action) : Reachable size k b → a.1 < size → a.2 < size →
      b.make_action a = .ok b2 → Reachable size k b2

/-- The well-formedness facts `make_action` preserves: the legal-action set is
exactly the complement of the occupied unpadded squares, its cardinality is
`size² − num_stones_placed`, a board that is not over still has room, and
every occupied cell of the padded grid is the image of an in-range action
(the padding stays vacant). -/
structure BoardWF (size k : ℕ) (b : Board) : Prop where
  size_eq : b.size = size
  k_eq : b.n_in_a_row = k
  k_lb : 2 ≤ k
  k_le : k ≤ size
  size_le : size ≤ 26
  legal_eq : b.legal_actions_indexset =
    (allActions size).filter
      (fun a => b.is_occupied (b.action_to_base_board_location a) = false)
  card_eq : b.legal_actions_indexset.card = size * size - b.num_stones_placed
  stones_le : b.num_stones_placed ≤ size * size
  stones_lt_of_not_over : b.outcome = none → b.num_stones_placed < size * size
  occupied_in_range : ∀ loc, b.base_board loc ≠ .vacant →
    ∃ a : Action, a.1 < size ∧ a.2 < size ∧ loc = b.action_to_base_board_location a

/-! ### Move strings (src/board.rs `parse_string_to_action`,
`legal_moves_as_strings`, `get_row_col_names`, `get_names_hashmaps`)

Rust strings are UTF-8 byte sequences and the parser slices them by byte
index, so move strings are modelled as byte lists. -/

/-- Decimal digit bytes, most significant first; structural in the fuel so
that it evaluates inside the kernel.  `decBytesAux n n` is the digit string
of `n` for `n ≥ 1`. -/
def decBytesAux : ℕ → ℕ → List ℕ
  | 0, _ => []
  | fuel + 1, n => if n = 0 then [] else decBytesAux fuel (n / 10) ++ [n % 10 + 48]

/-- The bytes of `u32::to_string` (decimal digits, ASCII). -/
def decBytes (n : ℕ) : List ℕ :=
  if n = 0 then [48] else decBytesAux n n

/-- `get_row_col_names`: row names are `"1"…"size"`, column names are the
first `size` letters `"A"…` (Rust filters `b'A'..=b'Z'` by
`c − b'A' < size`). -/
def get_row_col_names (size : ℕ) : List (List ℕ) × List (List ℕ) :=
  ((List.range size).map (fun i => decBytes (i + 1)),
   ((List.range 26).filter (fun c => c < size)).map (fun c => [65 + c]))

/-- First-match lookup of a key's index in a name list.  `get_names_hashmaps`
inserts each name with its position; the names are pairwise distinct, so the
HashMap lookup is the first (and only) index of the key. -/
def lookupIdx : List (List ℕ) → List ℕ → Option ℕ
  | [], _ => none
  | n :: rest, s => if n = s then some 0 else (lookupIdx rest s).map (· + 1)

/-- The row-name map of `get_names_hashmaps`: built from the *reversed* row
names, so row label `n` maps to index `size − n`. -/
def row_names_lookup (size : ℕ) (s : List ℕ) : Option ℕ :=
  lookupIdx (get_row_col_names size).1.reverse s

/-- The column-name map of `get_names_hashmaps`: label `'A'+i` maps to `i`. -/
def col_names_lookup (size : ℕ) (s : List ℕ) : Option ℕ :=
  lookupIdx (get_row_col_names size).2 s

/-- Result of `parse_string_to_action`: `panic` when the byte slicing
`string[0..1]` / `string[1..]` hits a non-UTF-8 boundary (byte 1 is a
continuation byte), `invalidMove` for `Err(())`. -/
inductive ParseResult where
  | panic
  | invalidMove
  | ok (a : Action)
deriving DecidableEq, Repr

/-- `Board::parse_string_to_action` on the raw bytes of the move string. -/
def Board.parse_string_to_action (b : Board) (s : List ℕ) : ParseResult :=
  if s.length < 2 then .invalidMove
  else if 128 ≤ s.getD 1 0 ∧ s.getD 1 0 < 192 then .panic
  else
    let row_string := s.drop 1
    let col_string := s.take 1
    match row_names_lookup b.size row_string, col_names_lookup b.size col_string with
    | some row_index, some col_index => .ok (row_index, col_index)
    | _, _ => .invalidMove

/-- The string `legal_moves_as_strings` builds for one action:
`col_names[col_index] + row_names[row_index]`. -/
def move_string_of_action (size : ℕ) (a : Action) : List ℕ :=
  (get_row_col_names size).2.getD a.2 [] ++ (get_row_col_names size).1.getD a.1 []

/-- `Board::legal_moves_as_strings` (a HashSet of strings). -/
def Board.legal_moves_as_strings (b : Board) : Finset (List ℕ) :=
  b.legal_actions_indexset.image (fun a => move_string_of_action b.size a)

/-- The move-application loop of the `test_basics` / `test_mcts_black_wins`
tests: parse each string (the tests `unwrap`, which never fails on their
inputs) and apply it with `make_action(..).ok()`, which discards failures. -/
def apply_move_strings (b : Board) (moves : List (List ℕ)) : Board :=
  moves.foldl
    (fun bd s =>
      match bd.parse_string_to_action s with
      | .ok a =>
        match bd.make_action a with
        | .ok bd2 => bd2
        | _ => bd
      | _ => bd)
    b

/-! ### MCTS (src/mcts.rs, src/utils.rs)

The torchjit model and the random sources are external collaborators (spec
§1), so they are parameters of the embedding: `Oracle` packages the model's
policy/value output together with the `f32` transcendental functions used by
the PUCT formula (the claims proved below do not depend on their values);
`noise` stands for the Dirichlet sample vector drawn once per injection, and
`sampler` for the `WeightedIndex` draw of `sample_from_weights`.  `f32`
arithmetic is modelled exactly over `ℚ`. -/

/-! Kernel-evaluable rational arithmetic: the Batteries `Rat` field
operations are `@[irreducible]`, which blocks `decide`-style evaluation, so
the embedding computes with the following wrappers built on `Rat.divInt`;
each is proved equal to the corresponding standard operation in the lemma
section (`qadd_eq` etc.), so the model is exact rational arithmetic. -/

def qadd (a b : ℚ) : ℚ := Rat.divInt (a.num * b.den + b.num * a.den) (a.den * b.den)

def qneg (a : ℚ) : ℚ := -a

def qsub (a b : ℚ) : ℚ := qadd a (qneg b)

def qmul (a b : ℚ) : ℚ := Rat.divInt (a.num * b.num) (a.den * b.den)

def qinv (a : ℚ) : ℚ := Rat.divInt a.den a.num

def qdiv (a b : ℚ) : ℚ := qmul a (qinv b)

def C_BASE : ℚ := 19652

/-- `C_INIT = 1.25`. -/
def C_INIT : ℚ := mkRat 5 4

/-- `DIRICHLET_EPSILON = 0.25`. -/
def DIRICHLET_EPSILON : ℚ := mkRat 1 4

/-- The search-tree `Node` of src/mcts.rs. -/
inductive Node where
  | mk (action : Option Action) (children : List Node) (total_value : ℚ)
      (prior : ℚ) (visit_count : ℕ) (turn : Player)

def Node.action : Node → Option Action
  | .mk a _ _ _ _ _ => a

def Node.children : Node → List Node
  | .mk _ c _ _ _ _ => c

def Node.total_value : Node → ℚ
  | .mk _ _ v _ _ _ => v

def Node.prior : Node → ℚ
  | .mk _ _ _ p _ _ => p

def Node.visit_count : Node → ℕ
  | .mk _ _ _ _ v _ => v

def Node.turn : Node → Player
  | .mk _ _ _ _ _ t => t

/-- `Node::new`. -/
def Node.new (action : Option Action) (turn : Player) (prior : ℚ) : Node :=
  .mk action [] 0 prior 0 turn

def Node.setChildren : Node → List Node → Node
  | .mk a _ tv p vc t, c => .mk a c tv p vc t

def Node.withPrior : Node → ℚ → Node
  | .mk a ch tv _ vc t, p => .mk a ch tv p vc t

/-- `Node::value`. -/
def Node.value (n : Node) : ℚ :=
  if n.visit_count = 0 then 0 else qdiv n.total_value (n.visit_count : ℚ)

/-- `Node::update`: the evaluation result is always from Black's canonical
perspective, so the sign is keyed on the node's own player-to-move. -/
def Node.update : Node → ℚ → Node
  | .mk a c tv p vc t, v =>
    .mk a c (match t with | .white => qadd tv v | .black => qsub tv v) p (vc + 1) t

def Node.is_leaf (n : Node) : Bool := n.children.isEmpty

/-- The external model plus the `f32` transcendental functions, abstracted. -/
structure Oracle where
  policies : Board → ℕ → ℚ
  value : Board → ℚ
  sqrtQ : ℚ → ℚ
  log10Q : ℚ → ℚ

/-- `Node::ucb`:
`value + (log10((1 + parent + C_BASE)/C_BASE) + C_INIT) · prior · sqrt(parent) / (1 + visits)`. -/
def Node.ucb (M : Oracle) (n : Node) (parent_visit_count : ℕ) : ℚ :=
  let Q_s := n.value
  let C_s := qadd (M.log10Q (qdiv (qadd (qadd 1 (parent_visit_count : ℚ)) C_BASE) C_BASE)) C_INIT
  let U_s := qdiv (qmul (qmul C_s n.prior) (M.sqrtQ (parent_visit_count : ℚ)))
    (qadd 1 (n.visit_count : ℚ))
  qadd Q_s U_s

/-- Modelled from the spec (claim C8): the selection score a parent would
use if it "negate[d] a child's average value when reading it"; kept only to
compare against the code's `Node::ucb`, which reads the value un-negated. -/
def Node.ucbNegatingRead (M : Oracle) (n : Node) (parent_visit_count : ℕ) : ℚ :=
  let Q_s := qneg n.value
  let C_s := qadd (M.log10Q (qdiv (qadd (qadd 1 (parent_visit_count : ℚ)) C_BASE) C_BASE)) C_INIT
  let U_s := qdiv (qmul (qmul C_s n.prior) (M.sqrtQ (parent_visit_count : ℚ)))
    (qadd 1 (n.visit_count : ℚ))
  qadd Q_s U_s

/-- The fold of `Node::get_best_child`: start from `NEG_INFINITY` (the
`none` accumulator) and replace the best candidate on a strictly greater
score, keeping the candidate's index. -/
def bestScan (M : Oracle) (pv : ℕ) : List Node → ℕ → Option (ℕ × ℚ) → Option (ℕ × ℚ)
  | [], _, acc => acc
  | c :: rest, i, acc =>
    let s := c.ucb M pv
    let acc2 : Option (ℕ × ℚ) :=
      match acc with
      | none => some (i, s)
      | some (bi, bs) => if bs < s then some (i, s) else some (bi, bs)
    bestScan M pv rest (i + 1) acc2

/-- `Node::get_best_child`, as the index of the returned child (the first
child attaining the maximal UCB score); `none` exactly on a leaf. -/
def Node.get_best_child_idx (M : Oracle) (n : Node) : Option ℕ :=
  (bestScan M n.visit_count n.children 0 none).map Prod.fst

/-- Modelled from the spec (claim C8): the fold of child selection if the
parent negated each child's average value when reading it (same shape as
`bestScan`, scoring with `ucbNegatingRead`). -/
def bestScanNegating (M : Oracle) (pv : ℕ) :
    List Node → ℕ → Option (ℕ × ℚ) → Option (ℕ × ℚ)
  | [], _, acc => acc
  | c :: rest, i, acc =>
    let s := c.ucbNegatingRead M pv
    let acc2 : Option (ℕ × ℚ) :=
      match acc with
      | none => some (i, s)
      | some (bi, bs) => if bs < s then some (i, s) else some (bi, bs)
    bestScanNegating M pv rest (i + 1) acc2

/-- Modelled from the spec (claim C8): child selection under the
negate-on-read convention; compared against the code's
`get_best_child_idx`. -/
def Node.get_best_child_idx_negating (M : Oracle) (n : Node) : Option ℕ :=
  (bestScanNegating M n.visit_count n.children 0 none).map Prod.fst

/-- Row-major enumeration of the legal-action set; stands in for the
`IndexSet` iteration order of `expand`. -/
def legalList (b : Board) : List Action :=
  ((List.range b.size).flatMap fun r => (List.range b.size).map fun c => (r, c)).filter
    (fun a => a ∈ b.legal_actions_indexset)

/-- The children `expand` pushes: one per legal action, tagged with the
opposite player and the oracle prior at the action's flat index. -/
def expandChildren (M : Oracle) (n : Node) (b : Board) : List Node :=
  (legalList b).map fun a =>
    Node.new (some a) n.turn.opposite (M.policies b (b.action_to_flat_index a))

/-- The tree effect of `expand`: a non-terminal board adds one child per
legal action; a terminal board adds nothing. -/
def expandNode (M : Oracle) (n : Node) (b : Board) : Node :=
  if b.is_game_over then n else n.setChildren (n.children ++ expandChildren M n b)

/-- The value `expand` returns: the oracle value on a non-terminal board,
otherwise ±1/0 from the outcome (Black's perspective). -/
def expandValue (M : Oracle) (b : Board) : ℚ :=
  if b.is_game_over = false then M.value b
  else
    match b.outcome with
    | some (.winner .black) => 1
    | some (.winner .white) => -1
    | some .draw => 0
    | none => 0

/-- The selection loop's `board.make_action(node.action.unwrap()).ok()`:
failures are discarded (neither failure nor a missing action occurs during a
search, since children hold actions legal at their parent's board). -/
def replayAction (b : Board) (a : Option Action) : Board :=
  match a with
  | none => b
  | some act =>
    match b.make_action act with
    | .ok b2 => b2
    | _ => b

mutual

/-- Number of nodes of a tree; used as fuel for the structurally recursive
renderings of the selection/backpropagation walk. -/
def Node.treeSize : Node → ℕ
  | .mk _ c _ _ _ _ => treeSizeList c + 1

def treeSizeList : List Node → ℕ
  | [] => 0
  | n :: rest => Node.treeSize n + treeSizeList rest

end

/-- One `MCTS::iteration` on the subtree rooted at `n` with scratch board
`b`: descend to the best child until a leaf, expand it, and update every
node on the path (leaf included) with the evaluation result.  Returns the
updated subtree and the backpropagated value.  The recursion is structural
in an explicit `fuel`; the wrappers below pass `treeSize n`, which strictly
bounds the tree height, so the fuel-exhaustion branch (which leaves the
subtree untouched) is unreachable.  The `n.children[i]? = none` branch is
likewise unreachable: `get_best_child` always returns an existing child. -/
def iterateNodeF (M : Oracle) : ℕ → Node → Board → Node × ℚ
  | 0, n, _ => (n, 0)
  | fuel + 1, n, b =>
    match n.get_best_child_idx M with
    | none =>
      let v := expandValue M b
      ((expandNode M n b).update v, v)
    | some i =>
      match n.children[i]? with
      | none => (n, 0)
      | some c =>
        let res := iterateNodeF M fuel c (replayAction b c.action)
        ((n.setChildren (n.children.set i res.1)).update res.2, res.2)

def iterateNode (M : Oracle) (n : Node) (b : Board) : Node × ℚ :=
  iterateNodeF M n.treeSize n b

/-- The tree state at the mid-search instant of claim C7: selection and
expansion done, backpropagation not yet applied.  Fuel as in
`iterateNodeF`. -/
def selectExpandNodeF (M : Oracle) : ℕ → Node → Board → Node
  | 0, n, _ => n
  | fuel + 1, n, b =>
    match n.get_best_child_idx M with
    | none => expandNode M n b
    | some i =>
      match n.children[i]? with
      | none => n
      | some c =>
        n.setChildren (n.children.set i (selectExpandNodeF M fuel c (replayAction b c.action)))

def selectExpandNode (M : Oracle) (n : Node) (b : Board) : Node :=
  selectExpandNodeF M n.treeSize n b

/-- The index path the selection phase walks (root excluded, leaf included).
Fuel as in `iterateNodeF`. -/
def selectPathIdxF (M : Oracle) : ℕ → Node → Board → List ℕ
  | 0, _, _ => []
  | fuel + 1, n, b =>
    match n.get_best_child_idx M with
    | none => []
    | some i =>
      match n.children[i]? with
      | none => []
      | some c => i :: selectPathIdxF M fuel c (replayAction b c.action)

def selectPathIdx (M : Oracle) (n : Node) (b : Board) : List ℕ :=
  selectPathIdxF M n.treeSize n b

/-- The node reached by following a list of child indices. -/
def nodeAt : Node → List ℕ → Option Node
  | n, [] => some n
  | n, i :: rest =>
    match n.children[i]? with
    | none => none
    | some c => nodeAt c rest

/-- Sum of the direct children's visit counts. -/
def childVisitSum (n : Node) : ℕ := (n.children.map fun c => c.visit_count).sum

/-- `inject_exploration_noise`: skipped with fewer than two root children,
otherwise each child's prior becomes `(1−ε)·prior + ε·noiseᵢ` where `noise`
is the Dirichlet sample vector (`DIRICHLET_ALPHA` parameterizes only the
external draw, which `noise` abstracts). -/
def inject_exploration_noise (noise : ℕ → ℚ) (root : Node) : Node :=
  if root.children.length < 2 then root
  else
    root.setChildren <| root.children.mapIdx fun i c =>
      c.withPrior (qadd (qmul (qsub 1 DIRICHLET_EPSILON) c.prior) (qmul DIRICHLET_EPSILON (noise i)))

/-- The `MCTS` struct. -/
structure MCTS where
  root : Node
  board : Board
  n_iterations : ℕ

/-- `MCTS::new`. -/
def MCTS.new (board : Board) (n_iterations : ℕ) : MCTS :=
  { root := Node.new none board.turn 0, board := board, n_iterations := n_iterations }

/-- The iteration loop of `get_best_action`: each iteration works on a fresh
clone of the search board. -/
def iterLoop (M : Oracle) (b : Board) : ℕ → Node → Node
  | 0, r => r
  | n + 1, r => iterLoop M b n (iterateNode M r b).1

/-- The deterministic final choice: start from `children[0]` (`none` models
the panic on an empty list) and keep the strictly higher visit count. -/
def chooseMostVisited : List Node → Option Node
  | [] => none
  | c :: rest =>
    some (rest.foldl (fun chosen child =>
      if chosen.visit_count < child.visit_count then child else chosen) c)

/-- `MCTS::get_best_action`: eagerly expand the root, inject exploration
noise (unconditionally — both modes), run the iterations, then either sample
a child by visit-count weight (exploratory) or take the most visited child
(deterministic).  Returns the chosen action (`none` covers the `expect` and
out-of-range panics) and the mutated search state. -/
def MCTS.get_best_action (M : Oracle) (noise : ℕ → ℚ) (sampler : List ℚ → ℕ)
    (m : MCTS) (exploratory_play : Bool) : Option Action × MCTS :=
  let root1 := expandNode M m.root m.board
  let root2 := inject_exploration_noise noise root1
  let root3 := iterLoop M m.board m.n_iterations root2
  let act : Option Action :=
    if exploratory_play then
      let children_probabilities :=
        root3.children.map fun c => qdiv (c.visit_count : ℚ) (root3.visit_count : ℚ)
      match root3.children[sampler children_probabilities]? with
      | none => none
      | some chosen_child => chosen_child.action
    else
      match chooseMostVisited root3.children with
      | none => none
      | some chosen_child => chosen_child.action
  (act, { m with root := root3 })

/-- `rollout`'s loop with explicit fuel; `picker` models
`get_random_action`'s uniform index draw into the legal set.  The `_ => b`
branch is the `expect` panic, unreachable when `picker` returns legal
actions.  The C10 theorem shows fuel `size² − num_stones_placed` always
drives the board to game over, which is the Rust loop's termination bound. -/
def rollout_fuel (picker : Board → Action) : ℕ → Board → Board
  | 0, b => b
  | fuel + 1, b =>
    if b.is_game_over then b
    else
      match b.make_action (picker b) with
      | .ok b2 => rollout_fuel picker fuel b2
      | _ => b

/-! ### Claim C7 : definitions -/

mutual

/-- Height of a search tree; descending to a child strictly decreases it,
and it is bounded by `treeSize`, so `treeSize` fuel never runs out before
the walk bottoms out. -/
def Node.height : Node → ℕ
  | .mk _ c _ _ _ _ => heightList c + 1

def heightList : List Node → ℕ
  | [] => 0
  | n :: rest => max (Node.height n) (heightList rest)

end

mutual

/-- The visit-count bookkeeping that holds between iterations (claim C7): a
childless node is unvisited, or sits on a terminal or full board; a node
with children counts the sum of its children's visit counts plus one for
the visit that expanded it — except the root (`isRoot = true`), whose eager
expansion's evaluation is discarded by `get_best_action`, so the root
counts the plain sum.  Child nodes are checked against the board obtained
by replaying their action. -/
def invB (b : Board) (isRoot : Bool) : Node → Bool
  | .mk _ ch _ _ vc _ =>
    (if ch.isEmpty then
      decide (vc = 0) || b.is_game_over || (legalList b).isEmpty
    else
      decide (vc = (ch.map fun c => c.visit_count).sum + (if isRoot then 0 else 1)))
    && invBChildren b ch

def invBChildren (b : Board) : List Node → Bool
  | [] => true
  | c :: rest => invB (replayAction b c.action) false c && invBChildren b rest

end

/-- Side condition the eager root expansion establishes: the root is
expanded, unless its board is terminal or has no legal move (in which case
`expand` would add no child anyway). -/
def rootReady (b : Board) (n : Node) : Bool :=
  !n.children.isEmpty || b.is_game_over || (legalList b).isEmpty

/-- The search root of `get_best_action` after the eager expansion, the
noise injection and `m` iterations: `root2` and then `root3` of
`MCTS.get_best_action`, run from `MCTS.new b _`. -/
def searchRootAfter (M : Oracle) (noise : ℕ → ℚ) (b : Board) (m : ℕ) : Node :=
  iterLoop M b m (inject_exploration_noise noise (expandNode M (Node.new none b.turn 0) b))

/-- A fixed concrete oracle for closed C7 instances. -/
def oracleC7 : Oracle :=
  { policies := fun _ _ => 1, value := fun _ => 0, sqrtQ := fun _ => 1, log10Q := fun _ => 0 }

/-! ## Lemmas -/

theorem qadd_eq (a b : ℚ) : qadd a b = a + b := by
  conv_rhs => rw [← Rat.num_divInt_den a, ← Rat.num_divInt_den b]
  rw [Rat.divInt_add_divInt _ _ (Int.natCast_ne_zero.mpr a.den_nz)
    (Int.natCast_ne_zero.mpr b.den_nz), qadd]

theorem qneg_eq (a : ℚ) : qneg a = -a := rfl

theorem qmul_eq (a b : ℚ) : qmul a b = a * b := by
  conv_rhs => rw [← Rat.num_divInt_den a, ← Rat.num_divInt_den b]
  rw [Rat.divInt_mul_divInt _ _ (Int.natCast_ne_zero.mpr a.den_nz)
    (Int.natCast_ne_zero.mpr b.den_nz), qmul]

theorem qsub_eq (a b : ℚ) : qsub a b = a - b := by
  rw [qsub, qadd_eq, qneg_eq, sub_eq_add_neg]

theorem qinv_eq (a : ℚ) : qinv a = a⁻¹ := by
  rw [qinv, Rat.inv_def']

theorem qdiv_eq (a b : ℚ) : qdiv a b = a / b := by
  rw [qdiv, qmul_eq, qinv_eq, div_eq_mul_inv]

/-! ### Board lemmas -/

theorem action_to_base_board_location_inj (b : Board) {a1 a2 : Action}
    (h : b.action_to_base_board_location a1 = b.action_to_base_board_location a2) : a1 = a2 := by
  simp only [Board.action_to_base_board_location, Prod.mk.injEq] at h
  obtain ⟨h1, h2⟩ := h
  exact Prod.ext (by omega) (by omega)

theorem is_occupied_false_iff (b : Board) (loc : BaseBoardLocation) :
    b.is_occupied loc = false ↔ b.base_board loc = .vacant := by
  simp [Board.is_occupied]

theorem mem_allActions {size : ℕ} {a : Action} :
    a ∈ allActions size ↔ a.1 < size ∧ a.2 < size := by
  simp [allActions, Finset.mem_product]

/-- Everything `make_action` guarantees when it returns `Ok`. -/
theorem make_action_ok_elim {b b2 : Board} {a : Action}
    (h : b.make_action a = .ok b2) :
    b.outcome = none ∧
    b.is_occupied (b.action_to_base_board_location a) = false ∧
    a.1 < b.size ∧ a.2 < b.size ∧
    b2 = { b.place_stone a with
           outcome := (b.place_stone a).check_outcome_with (checkLines b.n_in_a_row a)
           turn := if ((b.place_stone a).check_outcome_with
               (checkLines b.n_in_a_row a)).isNone
             then b.turn.opposite else b.turn } := by
  unfold Board.make_action at h
  by_cases hover : b.is_game_over
  · simp [hover] at h
  · rw [if_neg hover] at h
    have houtcome : b.outcome = none := by
      cases hb : b.outcome with
      | none => rfl
      | some o => exact absurd (by simp [Board.is_game_over, hb]) hover
    refine ⟨houtcome, ?_⟩
    by_cases hbounds : (b.action_to_base_board_location a).1 < b.base_board_size ∧
        (b.action_to_base_board_location a).2 < b.base_board_size
    · rw [if_pos hbounds] at h
      by_cases hocc : b.is_occupied (b.action_to_base_board_location a) = true
      · simp [hocc] at h
      · rw [Bool.not_eq_true] at hocc
        rw [hocc] at h
        simp only [Bool.false_eq_true, if_false] at h
        refine ⟨hocc, ?_⟩
        unfold Board.check_outcome Board.action_to_check_indices at h
        by_cases hrange : a.1 < b.size ∧ a.2 < b.size
        · rw [if_pos (show a.1 < (b.place_stone a).size ∧ a.2 < (b.place_stone a).size
            from hrange)] at h
          simp only [StepResult.ok.injEq] at h
          exact ⟨hrange.1, hrange.2, h.symm⟩
        · rw [if_neg (show ¬ (a.1 < (b.place_stone a).size ∧ a.2 < (b.place_stone a).size)
            from hrange)] at h
          simp at h
    · rw [if_neg hbounds] at h
      simp at h

theorem boardWF_new {size k : ℕ} (hk : 2 ≤ k) (hks : k ≤ size) (hs : size ≤ 26) :
    BoardWF size k (Board.new size k) := by
  refine ⟨rfl, rfl, hk, hks, hs, ?_, ?_, ?_, ?_, ?_⟩
  · refine (Finset.filter_true_of_mem ?_).symm
    intro a _
    simp [Board.new, Board.is_occupied]
  · simp [Board.new, allActions]
  · simp [Board.new]
  · intro _
    simp only [Board.new]
    nlinarith
  · intro loc hloc
    simp [Board.new] at hloc

theorem boardWF_step {size k : ℕ} {b b2 : Board} {a : Action}
    (wf : BoardWF size k b) (h : b.make_action a = .ok b2) : BoardWF size k b2 := by
  obtain ⟨houtcome, hocc, ha1, ha2, hb2⟩ := make_action_ok_elim h
  have hmem : a ∈ b.legal_actions_indexset := by
    rw [wf.legal_eq, Finset.mem_filter]
    exact ⟨mem_allActions.mpr ⟨wf.size_eq ▸ ha1, wf.size_eq ▸ ha2⟩, hocc⟩
  have hcard_pos : 0 < b.legal_actions_indexset.card := Finset.card_pos.mpr ⟨a, hmem⟩
  have hstones_lt : b.num_stones_placed < size * size := by
    have := wf.card_eq
    omega
  have hsize : b2.size = b.size := by subst hb2; rfl
  have hk2 : b2.n_in_a_row = b.n_in_a_row := by subst hb2; rfl
  have hboard : b2.base_board = Function.update b.base_board
      (b.action_to_base_board_location a) (.occupied b.turn) := by subst hb2; rfl
  have hlegal : b2.legal_actions_indexset = b.legal_actions_indexset.erase a := by
    subst hb2; rfl
  have hnum : b2.num_stones_placed = b.num_stones_placed + 1 := by subst hb2; rfl
  have hout : b2.outcome = Board.check_outcome_with (b.place_stone a)
      (checkLines b.n_in_a_row a) := by subst hb2; rfl
  have hpad : b2.base_board_padding = b.base_board_padding := by
    simp [Board.base_board_padding, hk2]
  have hloc2 : ∀ x : Action, b2.action_to_base_board_location x =
      b.action_to_base_board_location x := by
    intro x
    simp [Board.action_to_base_board_location, hpad]
  refine ⟨hsize.trans wf.size_eq, hk2.trans wf.k_eq, wf.k_lb, wf.k_le, wf.size_le,
    ?_, ?_, ?_, ?_, ?_⟩
  · -- legal set = complement of occupied squares
    ext x
    rw [hlegal]
    simp only [Finset.mem_erase, wf.legal_eq, Finset.mem_filter]
    constructor
    · rintro ⟨hxa, hxmem, hxvac⟩
      refine ⟨hxmem, ?_⟩
      rw [is_occupied_false_iff] at hxvac ⊢
      rw [hloc2 x, hboard]
      rw [Function.update_apply]
      rw [if_neg (fun heq => hxa (action_to_base_board_location_inj b heq))]
      exact hxvac
    · rintro ⟨hxmem, hxvac⟩
      rw [is_occupied_false_iff, hloc2 x, hboard] at hxvac
      have hxa : x ≠ a := by
        intro heq
        subst heq
        rw [Function.update_apply, if_pos rfl] at hxvac
        exact SquareState.noConfusion hxvac
      refine ⟨hxa, hxmem, ?_⟩
      rw [is_occupied_false_iff]
      rw [Function.update_apply, if_neg (fun heq => hxa
        (action_to_base_board_location_inj b heq))] at hxvac
      exact hxvac
  · rw [hlegal, hnum]
    rw [Finset.card_erase_of_mem hmem, wf.card_eq]
    omega
  · rw [hnum]
    omega
  · intro hnone
    rw [hnum]
    rw [hout] at hnone
    unfold Board.check_outcome_with at hnone
    split at hnone
    · exact absurd hnone (by simp)
    · split at hnone
      · exact absurd hnone (by simp)
      · rename_i hne
        have hne2 : ¬ (b.num_stones_placed + 1 = b.size * b.size) := hne
        rw [wf.size_eq] at hne2
        omega
  · intro loc hloc
    rw [hboard] at hloc
    rw [Function.update_apply] at hloc
    split at hloc
    · rename_i heq
      refine ⟨a, wf.size_eq ▸ ha1, wf.size_eq ▸ ha2, ?_⟩
      rw [hloc2 a]
      exact heq
    · obtain ⟨x, hx1, hx2, hxeq⟩ := wf.occupied_in_range loc hloc
      exact ⟨x, hx1, hx2, hxeq.trans (hloc2 x).symm⟩

theorem reachable_wf {size k : ℕ} {b : Board} (h : Reachable size k b) : BoardWF size k b := by
  induction h with
  | base hk hks hs => exact boardWF_new hk hks hs
  | step a _ _ _ hok ih => exact boardWF_step ih hok

theorem mem_windowsList {α : Type} {k : ℕ} {l : List α} {w : List α} :
    w ∈ windowsList k l ↔ ∃ i, i + k ≤ l.length ∧ w = (l.drop i).take k := by
  simp only [windowsList, List.mem_map, List.mem_range]
  constructor
  · rintro ⟨i, hi, rfl⟩
    exact ⟨i, by omega, rfl⟩
  · rintro ⟨i, hi, rfl⟩
    exact ⟨i, by omega, rfl⟩

theorem locations_contain_win_iff {b : Board} {locs : List BaseBoardLocation} :
    b.locations_contain_win locs = true ↔
      ∃ i, i + b.n_in_a_row ≤ locs.length ∧
        ∀ loc ∈ (locs.drop i).take b.n_in_a_row,
          b.base_board loc = SquareState.occupied b.turn := by
  unfold Board.locations_contain_win
  rw [List.any_eq_true]
  constructor
  · rintro ⟨w, hw, hall⟩
    obtain ⟨i, hik, rfl⟩ := mem_windowsList.mp hw
    refine ⟨i, hik, ?_⟩
    intro loc hloc
    have := List.all_eq_true.mp hall loc hloc
    simpa [Board.is_occupied_by] using this
  · rintro ⟨i, hik, hall⟩
    refine ⟨(locs.drop i).take b.n_in_a_row, mem_windowsList.mpr ⟨i, hik, rfl⟩, ?_⟩
    rw [List.all_eq_true]
    intro loc hloc
    simpa [Board.is_occupied_by] using hall loc hloc

/-! ### Claim C1 -/

/-- C1: for every board created by `Board::new(size, k)` and every sequence
of successfully applied in-range actions, the legal-action set is exactly the
set of in-range actions whose square is vacant (so legal actions and occupied
squares are complementary), and it contains exactly
`size² − num_stones_placed` actions. -/
theorem C1_legal_set_is_vacant_complement {size k : ℕ} {b : Board}
    (h : Reachable size k b) :
    b.legal_actions_indexset =
      (allActions size).filter
        (fun a => b.is_occupied (b.action_to_base_board_location a) = false) ∧
    b.legal_actions_indexset.card = size * size - b.num_stones_placed :=
  ⟨(reachable_wf h).legal_eq, (reachable_wf h).card_eq⟩

theorem C1_witness :
    (Board.new 3 3).legal_actions_indexset =
      (allActions 3).filter
        (fun a => (Board.new 3 3).is_occupied
          ((Board.new 3 3).action_to_base_board_location a) = false) ∧
    (Board.new 3 3).legal_actions_indexset.card =
      3 * 3 - (Board.new 3 3).num_stones_placed :=
  C1_legal_set_is_vacant_complement
    (Reachable.base (by norm_num) (by norm_num) (by norm_num))

/-! ### Claim C3 -/

/-- C3 counterexample: out-of-range actions do not fail with the recoverable
`Err` that the claim promises — `make_action` panics.  For `(3,3)` on a fresh
3×3 board the target lands inside the padding, so the stone is even placed
(and the stone counter incremented) before the `expect` on the precomputed
check-line table fires; for `(9,9)` the `ndarray` indexing itself panics. -/
theorem C3_counterexample :
    (Board.new 3 3).make_action (3, 3) = .panic ∧
    (Board.new 3 3).make_action (9, 9) = .panic :=
  ⟨rfl, rfl⟩

/-- C3 (amended): on a reachable, non-terminal board an in-range action onto
an occupied square fails with the recoverable `Err(())`, leaving the board
unmodified (the error carries no board); an out-of-range action, however,
panics instead of returning the recoverable error. -/
theorem C3_amended_invalid_moves {size k : ℕ} {b : Board} (h : Reachable size k b)
    (hover : b.is_game_over = false) :
    (∀ a : Action, a.1 < size → a.2 < size →
      b.is_occupied (b.action_to_base_board_location a) = true →
      b.make_action a = .invalidMove) ∧
    (∀ a : Action, ¬ (a.1 < size ∧ a.2 < size) → b.make_action a = .panic) := by
  have wf := reachable_wf h
  constructor
  · intro a ha1 ha2 hocc
    rw [← wf.size_eq] at ha1 ha2
    simp only [Board.make_action, hover, Bool.false_eq_true, if_false]
    have hbounds : (b.action_to_base_board_location a).1 < b.base_board_size ∧
        (b.action_to_base_board_location a).2 < b.base_board_size := by
      simp only [Board.action_to_base_board_location, Board.base_board_size]
      omega
    rw [if_pos hbounds, hocc]
    simp
  · intro a hnot
    simp only [Board.make_action, hover, Bool.false_eq_true, if_false]
    by_cases hbounds : (b.action_to_base_board_location a).1 < b.base_board_size ∧
        (b.action_to_base_board_location a).2 < b.base_board_size
    · rw [if_pos hbounds]
      have hvac : b.is_occupied (b.action_to_base_board_location a) = false := by
        by_contra hocc
        rw [Bool.not_eq_false] at hocc
        have hne : b.base_board (b.action_to_base_board_location a) ≠ .vacant := by
          simpa [Board.is_occupied] using hocc
        obtain ⟨x, hx1, hx2, hxeq⟩ := wf.occupied_in_range _ hne
        have hxa : x = a := action_to_base_board_location_inj b hxeq.symm
        subst hxa
        exact hnot ⟨hx1, hx2⟩
      rw [hvac]
      simp only [Bool.false_eq_true, if_false]
      have hnone : (b.place_stone a).check_outcome a = none := by
        unfold Board.check_outcome Board.action_to_check_indices
        rw [if_neg]
        intro hc
        have hc2 : a.1 < b.size ∧ a.2 < b.size := hc
        exact hnot (by rw [← wf.size_eq]; exact hc2)
      rw [hnone]
    · rw [if_neg hbounds]

theorem C3_witness :
    (apply_move_strings (Board.new 3 3) [[66, 50]]).make_action (1, 1) = .invalidMove ∧
    (apply_move_strings (Board.new 3 3) [[66, 50]]).make_action (5, 0) = .panic :=
  have hre : Reachable 3 3 (apply_move_strings (Board.new 3 3) [[66, 50]]) :=
    Reachable.step (1, 1) (Reachable.base (by norm_num) (by norm_num) (by norm_num))
      (by norm_num) (by norm_num) rfl
  have h3 := C3_amended_invalid_moves hre (by decide)
  ⟨h3.1 (1, 1) (by norm_num) (by norm_num) (by decide), h3.2 (5, 0) (by omega)⟩

/-! ### Claim C5 -/

/-- C5: when `make_action` succeeds, the outcome stored on the returned board
is evaluated on the post-placement, pre-turn-flip state: it is
`Winner(mover)` exactly when some length-`k` window of one of the four
precomputed check lines through the placed stone is entirely occupied by the
mover on the updated grid; it is `Draw` exactly when no such window exists
and the incremented stone count equals `size²`; and the turn flips if and
only if the outcome is still undetermined. -/
theorem C5_outcome_evaluation {b b2 : Board} {a : Action}
    (h : b.make_action a = .ok b2) :
    (b2.outcome = some (.winner b.turn) ↔
      ∃ line ∈ checkLines b.n_in_a_row a, ∃ i, i + b.n_in_a_row ≤ line.length ∧
        ∀ loc ∈ (line.drop i).take b.n_in_a_row,
          b2.base_board loc = SquareState.occupied b.turn) ∧
    (b2.outcome = some .draw ↔
      (¬ ∃ line ∈ checkLines b.n_in_a_row a, ∃ i, i + b.n_in_a_row ≤ line.length ∧
        ∀ loc ∈ (line.drop i).take b.n_in_a_row,
          b2.base_board loc = SquareState.occupied b.turn) ∧
      b.num_stones_placed + 1 = b.size * b.size) ∧
    b2.num_stones_placed = b.num_stones_placed + 1 ∧
    b2.turn = (if b2.outcome = none then b.turn.opposite else b.turn) := by
  obtain ⟨houtcome, hocc, ha1, ha2, hb2⟩ := make_action_ok_elim h
  have hboard : b2.base_board = (b.place_stone a).base_board := by subst hb2; rfl
  have hnum : b2.num_stones_placed = b.num_stones_placed + 1 := by subst hb2; rfl
  have hout : b2.outcome =
      (b.place_stone a).check_outcome_with (checkLines b.n_in_a_row a) := by subst hb2; rfl
  have hturn : b2.turn = if b2.outcome.isNone then b.turn.opposite else b.turn := by
    rw [hout]
    subst hb2
    rfl
  have hwin_iff : ∀ locs : List BaseBoardLocation,
      (b.place_stone a).locations_contain_win locs = true ↔
        ∃ i, i + b.n_in_a_row ≤ locs.length ∧
          ∀ loc ∈ (locs.drop i).take b.n_in_a_row,
            b2.base_board loc = SquareState.occupied b.turn := by
    intro locs
    rw [hboard]
    exact locations_contain_win_iff
  have hexists_iff :
      (checkLines b.n_in_a_row a).any
        (fun locations => (b.place_stone a).locations_contain_win locations) = true ↔
      (∃ line ∈ checkLines b.n_in_a_row a, ∃ i, i + b.n_in_a_row ≤ line.length ∧
        ∀ loc ∈ (line.drop i).take b.n_in_a_row,
          b2.base_board loc = SquareState.occupied b.turn) := by
    rw [List.any_eq_true]
    constructor
    · rintro ⟨line, hline, hcw⟩
      exact ⟨line, hline, (hwin_iff line).mp hcw⟩
    · rintro ⟨line, hline, hex⟩
      exact ⟨line, hline, (hwin_iff line).mpr hex⟩
  refine ⟨?_, ?_, hnum, ?_⟩
  · rw [hout]
    unfold Board.check_outcome_with
    by_cases hany : (checkLines b.n_in_a_row a).any
        (fun locations => (b.place_stone a).locations_contain_win locations) = true
    · rw [if_pos hany]
      simp only [Option.some.injEq]
      constructor
      · intro _
        exact hexists_iff.mp hany
      · intro _
        rfl
    · rw [if_neg hany]
      constructor
      · intro hcontra
        exfalso
        by_cases hdraw : (b.place_stone a).num_stones_placed =
            (b.place_stone a).size * (b.place_stone a).size
        · rw [if_pos hdraw] at hcontra
          exact Outcome.noConfusion (Option.some.inj hcontra)
        · rw [if_neg hdraw] at hcontra
          exact Option.noConfusion hcontra
      · intro hex
        exact absurd (hexists_iff.mpr hex) hany
  · rw [hout]
    unfold Board.check_outcome_with
    by_cases hany : (checkLines b.n_in_a_row a).any
        (fun locations => (b.place_stone a).locations_contain_win locations) = true
    · rw [if_pos hany]
      constructor
      · intro hcontra
        exact absurd (Option.some.inj hcontra) (by intro he; exact Outcome.noConfusion he)
      · rintro ⟨hnowin, _⟩
        exact absurd (hexists_iff.mp hany) hnowin
    · rw [if_neg hany]
      by_cases hdraw : (b.place_stone a).num_stones_placed =
          (b.place_stone a).size * (b.place_stone a).size
      · rw [if_pos hdraw]
        have hdraw2 : b.num_stones_placed + 1 = b.size * b.size := hdraw
        constructor
        · intro _
          exact ⟨fun hex => absurd (hexists_iff.mpr hex) hany, hdraw2⟩
        · intro _
          rfl
      · rw [if_neg hdraw]
        constructor
        · intro hcontra
          exact Option.noConfusion hcontra
        · rintro ⟨_, hdraw2⟩
          exact absurd (show (b.place_stone a).num_stones_placed =
            (b.place_stone a).size * (b.place_stone a).size from hdraw2) hdraw
  · rw [hturn]
    simp only [Option.isNone_iff_eq_none]

theorem C5_witness :
    (apply_move_strings (Board.new 3 3) [[66, 50]]).num_stones_placed = 0 + 1 ∧
    (apply_move_strings (Board.new 3 3) [[66, 50]]).turn = Player.white := by
  have h5 := C5_outcome_evaluation (show (Board.new 3 3).make_action (1, 1) =
    .ok (apply_move_strings (Board.new 3 3) [[66, 50]]) from rfl)
  refine ⟨h5.2.2.1, ?_⟩
  rw [h5.2.2.2]
  rw [if_pos (by decide)]
  rfl

/-! ### Claim C2 -/

/-- C2 counterexample: after the six claimed moves B2, A2, C3, A1, A3, B3
(players alternating from Black) the game is not over at all — the outcome
is still `none` — so the sequence cannot yield `Winner(first mover)`. -/
theorem C2_counterexample :
    (apply_move_strings (Board.new 3 3)
      [[66, 50], [65, 50], [67, 51], [65, 49], [65, 51], [66, 51]]).outcome = none := by
  decide

/-- C2 (amended): the code's own test plays a seventh move C1; after
B2, A2, C3, A1, A3, B3, C1 the outcome is `Winner(Black)` (the first mover),
won via the diagonal through the squares labelled C1, B2 and A3 — their
parsed actions are (2,2), (1,1), (0,0), and all three squares are occupied
by Black. -/
theorem C2_amended_seven_moves_black_wins :
    (apply_move_strings (Board.new 3 3)
      [[66, 50], [65, 50], [67, 51], [65, 49], [65, 51], [66, 51], [67, 49]]).outcome =
      some (.winner .black) ∧
    ((Board.new 3 3).parse_string_to_action [67, 49] = .ok (2, 2) ∧
     (Board.new 3 3).parse_string_to_action [66, 50] = .ok (1, 1) ∧
     (Board.new 3 3).parse_string_to_action [65, 51] = .ok (0, 0)) ∧
    (∀ i < 3, (apply_move_strings (Board.new 3 3)
      [[66, 50], [65, 50], [67, 51], [65, 49], [65, 51], [66, 51], [67, 49]]).base_board
        ((Board.new 3 3).action_to_base_board_location (i, i)) =
        SquareState.occupied Player.black) := by
  exact ⟨by decide, ⟨by decide, by decide, by decide⟩, by decide⟩

/-! ### Claim C4 : decimal-byte and lookup lemmas -/

theorem decBytesAux_val (fuel : ℕ) : ∀ n acc, n ≤ fuel →
    List.foldl (fun acc2 d => acc2 * 10 + (d - 48)) acc (decBytesAux fuel n) =
      acc * 10 ^ (decBytesAux fuel n).length + n := by
  induction fuel with
  | zero =>
    intro n acc hn
    interval_cases n
    simp [decBytesAux]
  | succ fuel ih =>
    intro n acc hn
    by_cases h0 : n = 0
    · subst h0
      simp [decBytesAux]
    · have hdiv : n / 10 ≤ fuel := by
        have h1 : n / 10 < n := Nat.div_lt_self (by omega) (by norm_num)
        omega
      rw [decBytesAux, if_neg h0, List.foldl_append, ih (n / 10) acc hdiv]
      simp only [List.foldl_cons, List.foldl_nil, List.length_append, List.length_cons,
        List.length_nil, pow_succ]
      rw [← mul_assoc]
      generalize acc * 10 ^ (decBytesAux fuel (n / 10)).length = Q
      omega

theorem decBytes_val (n : ℕ) :
    List.foldl (fun acc d => acc * 10 + (d - 48)) 0 (decBytes n) = n := by
  unfold decBytes
  by_cases h0 : n = 0
  · subst h0
    simp
  · rw [if_neg h0, decBytesAux_val n n 0 le_rfl]
    simp

theorem decBytes_inj {m n : ℕ} (h : decBytes m = decBytes n) : m = n := by
  have hm := decBytes_val m
  rw [h, decBytes_val n] at hm
  exact hm.symm

theorem decBytes_ne_nil (n : ℕ) : decBytes n ≠ [] := by
  unfold decBytes
  by_cases h0 : n = 0
  · subst h0
    simp
  · rw [if_neg h0]
    cases n with
    | zero => exact absurd rfl h0
    | succ m =>
      rw [decBytesAux, if_neg h0]
      simp

theorem decBytesAux_bounds (fuel : ℕ) : ∀ n d, d ∈ decBytesAux fuel n → 48 ≤ d ∧ d ≤ 57 := by
  induction fuel with
  | zero =>
    intro n d hd
    simp [decBytesAux] at hd
  | succ fuel ih =>
    intro n d hd
    rw [decBytesAux] at hd
    by_cases h0 : n = 0
    · rw [if_pos h0] at hd
      simp at hd
    · rw [if_neg h0, List.mem_append] at hd
      rcases hd with hd | hd
      · exact ih _ _ hd
      · simp at hd
        have hlt : n % 10 < 10 := Nat.mod_lt _ (by norm_num)
        omega

theorem decBytes_bounds {n d : ℕ} (hd : d ∈ decBytes n) : 48 ≤ d ∧ d ≤ 57 := by
  unfold decBytes at hd
  by_cases h0 : n = 0
  · rw [if_pos h0] at hd
    simp at hd
    omega
  · rw [if_neg h0] at hd
    exact decBytesAux_bounds n n d hd

theorem lookupIdx_some {l : List (List ℕ)} {s : List ℕ} {i : ℕ}
    (h : lookupIdx l s = some i) : i < l.length ∧ l.getD i [] = s := by
  induction l generalizing i with
  | nil => simp [lookupIdx] at h
  | cons x rest ih =>
    rw [lookupIdx] at h
    by_cases hx : x = s
    · rw [if_pos hx] at h
      have : i = 0 := (Option.some.inj h).symm
      subst this
      exact ⟨by simp, hx⟩
    · rw [if_neg hx] at h
      cases hrec : lookupIdx rest s with
      | none =>
        rw [hrec] at h
        simp at h
      | some j =>
        rw [hrec] at h
        have h2 : some (j + 1) = some i := h
        have : i = j + 1 := (Option.some.inj h2).symm
        subst this
        obtain ⟨hj, hget⟩ := ih hrec
        constructor
        · simp only [List.length_cons]
          omega
        · rw [List.getD_cons_succ]
          exact hget

theorem lookupIdx_first {l : List (List ℕ)} {s : List ℕ} {j : ℕ}
    (hj : j < l.length) (hs : l.getD j [] = s) (hfirst : ∀ j2 < j, l.getD j2 [] ≠ s) :
    lookupIdx l s = some j := by
  induction l generalizing j with
  | nil => simp at hj
  | cons x rest ih =>
    rw [lookupIdx]
    cases j with
    | zero =>
      simp only [List.getD_cons_zero] at hs
      rw [if_pos hs]
    | succ j =>
      have hx : x ≠ s := by
        have h0 := hfirst 0 (Nat.succ_pos j)
        simpa using h0
      rw [if_neg hx]
      have hrec : lookupIdx rest s = some j := by
        refine ih (by simpa using hj) (by simpa using hs) ?_
        intro j2 hj2
        have := hfirst (j2 + 1) (by omega)
        simpa using this
      rw [hrec]
      rfl

theorem getD_map_range (m : ℕ) (g : ℕ → List ℕ) {j : ℕ} (hj : j < m) :
    ((List.range m).map g).getD j [] = g j := by
  rw [List.getD_eq_getElem _ _ (by simpa using hj)]
  simp

theorem reverse_map_range {α : Type} (m : ℕ) (g : ℕ → α) :
    ((List.range m).map g).reverse = (List.range m).map (fun j => g (m - 1 - j)) := by
  apply List.ext_getElem
  · simp
  · intro i h1 h2
    rw [List.getElem_reverse]
    simp only [List.getElem_map, List.getElem_range, List.length_map, List.length_range]

theorem filter_range_lt : ∀ m n : ℕ, n ≤ m →
    (List.range m).filter (fun c => c < n) = List.range n := by
  intro m
  induction m with
  | zero =>
    intro n hn
    interval_cases n
    rfl
  | succ m ih =>
    intro n hn
    rw [List.range_succ, List.filter_append]
    by_cases h : n = m + 1
    · subst h
      rw [List.range_succ]
      have hall : (List.range m).filter (fun c => c < m + 1) = List.range m := by
        rw [List.filter_eq_self]
        intro a ha
        simp only [List.mem_range] at ha
        simp only [decide_eq_true_eq]
        omega
      rw [hall]
      have hm : m < m + 1 := by omega
      simp [hm]
    · have hnm : n ≤ m := by omega
      rw [ih n hnm]
      have hnot : ¬ (m < n) := by omega
      simp [hnot]

theorem row_names_lookup_eq {size n : ℕ} (h1 : 1 ≤ n) (h2 : n ≤ size) :
    row_names_lookup size (decBytes n) = some (size - n) := by
  unfold row_names_lookup get_row_col_names
  rw [reverse_map_range]
  apply lookupIdx_first
  · simp
    omega
  · rw [getD_map_range size _ (by omega)]
    congr 1
    omega
  · intro j2 hj2
    rw [getD_map_range size _ (by omega)]
    intro hc
    have := decBytes_inj hc
    omega

theorem row_names_lookup_sound {size : ℕ} {s : List ℕ} {r : ℕ}
    (h : row_names_lookup size s = some r) : r < size ∧ s = decBytes (size - r) := by
  unfold row_names_lookup get_row_col_names at h
  rw [reverse_map_range] at h
  obtain ⟨hlen, hget⟩ := lookupIdx_some h
  simp only [List.length_map, List.length_range] at hlen
  rw [getD_map_range size _ hlen] at hget
  refine ⟨hlen, ?_⟩
  rw [← hget]
  congr 1
  omega

theorem col_names_lookup_eq {size i : ℕ} (h26 : size ≤ 26) (hi : i < size) :
    col_names_lookup size [65 + i] = some i := by
  unfold col_names_lookup get_row_col_names
  rw [filter_range_lt 26 size h26]
  apply lookupIdx_first
  · simpa using hi
  · rw [getD_map_range size _ hi]
  · intro j2 hj2
    rw [getD_map_range size _ (by omega)]
    intro hc
    simp only [List.cons.injEq, and_true] at hc
    omega

theorem col_names_lookup_sound {size : ℕ} {s : List ℕ} {c : ℕ} (h26 : size ≤ 26)
    (h : col_names_lookup size s = some c) : c < size ∧ s = [65 + c] := by
  unfold col_names_lookup get_row_col_names at h
  rw [filter_range_lt 26 size h26] at h
  obtain ⟨hlen, hget⟩ := lookupIdx_some h
  simp only [List.length_map, List.length_range] at hlen
  rw [getD_map_range size _ hlen] at hget
  exact ⟨hlen, hget.symm⟩

/-- Reduction of `parse_string_to_action` once the length and byte-boundary
guards have passed. -/
theorem parse_unfold (b : Board) (s : List ℕ) (hlen : ¬ (s.length < 2))
    (hcont : ¬ (128 ≤ s.getD 1 0 ∧ s.getD 1 0 < 192)) :
    b.parse_string_to_action s =
      match row_names_lookup b.size (s.drop 1), col_names_lookup b.size (s.take 1) with
      | some row_index, some col_index => .ok (row_index, col_index)
      | _, _ => .invalidMove := by
  unfold Board.parse_string_to_action
  rw [if_neg hlen, if_neg hcont]

/-! ### Claim C4 -/

/-- C4 counterexample: parsing is not case-insensitive — the lowercase "b2"
(bytes 98 50), a syntactically valid move string per the claim, is rejected;
formatting the parse of "A1" (65 49) as `legal_moves_as_strings` does yields
"A3" (65 51), not the normalized form of "A1" (the row names are mirrored
between parser and formatter); and parsing "é2" (a two-character string
whose second byte is a UTF-8 continuation byte) panics on the byte slicing
instead of failing with InvalidMove. -/
theorem C4_counterexample :
    (Board.new 3 3).parse_string_to_action [98, 50] = .invalidMove ∧
    ((Board.new 3 3).parse_string_to_action [65, 49] = .ok (2, 0) ∧
      move_string_of_action 3 (2, 0) = [65, 51]) ∧
    (Board.new 3 3).parse_string_to_action [195, 169, 50] = .panic :=
  ⟨by decide, ⟨by decide, by decide⟩, by decide⟩

/-- C4 (amended): for every move string of an **uppercase** column letter
(bounded by board size) followed by a decimal row number `1 ≤ n ≤ size`,
parsing succeeds with the action `(size − n, column index)` — the row
coordinate is mirrored, so formatting the parsed action as
`legal_moves_as_strings` does reproduces the column letter followed by
`size + 1 − n`, not the original string; parsing only ever returns in-range
coordinates, of strings of exactly that shape; and the only parse panic is
the byte slicing when byte 1 is a UTF-8 continuation byte — every other
malformed string fails with the recoverable InvalidMove. -/
theorem C4_amended_parse_format {b : Board} (h26 : b.size ≤ 26) :
    (∀ n i : ℕ, 1 ≤ n → n ≤ b.size → i < b.size →
      b.parse_string_to_action ([65 + i] ++ decBytes n) = .ok (b.size - n, i) ∧
      move_string_of_action b.size (b.size - n, i) = [65 + i] ++ decBytes (b.size + 1 - n)) ∧
    (∀ (s : List ℕ) (r c : ℕ), b.parse_string_to_action s = .ok (r, c) →
      r < b.size ∧ c < b.size ∧ s = [65 + c] ++ decBytes (b.size - r)) ∧
    (∀ s : List ℕ, b.parse_string_to_action s = .panic →
      128 ≤ s.getD 1 0 ∧ s.getD 1 0 < 192) := by
  refine ⟨?_, ?_, ?_⟩
  · intro n i hn1 hn2 hi
    have hpos : 1 ≤ (decBytes n).length := List.length_pos.mpr (decBytes_ne_nil n)
    have hlen : ¬ (([65 + i] ++ decBytes n).length < 2) := by
      simp only [List.length_append, List.length_cons, List.length_nil]
      omega
    have hbyte : ([65 + i] ++ decBytes n).getD 1 0 ∈ decBytes n := by
      cases hd : decBytes n with
      | nil => exact absurd hd (decBytes_ne_nil n)
      | cons d rest => simp [hd]
    have hb := decBytes_bounds hbyte
    have hcont : ¬ (128 ≤ ([65 + i] ++ decBytes n).getD 1 0 ∧
        ([65 + i] ++ decBytes n).getD 1 0 < 192) := by omega
    constructor
    · rw [parse_unfold b _ hlen hcont]
      have hdrop : ([65 + i] ++ decBytes n).drop 1 = decBytes n := by simp
      have htake : ([65 + i] ++ decBytes n).take 1 = [65 + i] := by simp
      rw [hdrop, htake, row_names_lookup_eq hn1 hn2, col_names_lookup_eq h26 hi]
    · unfold move_string_of_action get_row_col_names
      rw [filter_range_lt 26 b.size h26]
      rw [getD_map_range b.size _ hi, getD_map_range b.size _ (by omega)]
      congr 2
      omega
  · intro s r c hok
    by_cases hlen : s.length < 2
    · unfold Board.parse_string_to_action at hok
      rw [if_pos hlen] at hok
      exact ParseResult.noConfusion hok
    · by_cases hcont : 128 ≤ s.getD 1 0 ∧ s.getD 1 0 < 192
      · unfold Board.parse_string_to_action at hok
        rw [if_neg hlen, if_pos hcont] at hok
        exact ParseResult.noConfusion hok
      · rw [parse_unfold b s hlen hcont] at hok
        cases hrow : row_names_lookup b.size (s.drop 1) with
        | none =>
          rw [hrow] at hok
          cases hcol : col_names_lookup b.size (s.take 1) with
          | none =>
            rw [hcol] at hok
            exact ParseResult.noConfusion hok
          | some cc =>
            rw [hcol] at hok
            exact ParseResult.noConfusion hok
        | some rr =>
          rw [hrow] at hok
          cases hcol : col_names_lookup b.size (s.take 1) with
          | none =>
            rw [hcol] at hok
            exact ParseResult.noConfusion hok
          | some cc =>
            rw [hcol] at hok
            have hok2 : ParseResult.ok (rr, cc) = ParseResult.ok (r, c) := hok
            have hpair := ParseResult.ok.inj hok2
            have hr : rr = r := congrArg Prod.fst hpair
            have hc : cc = c := congrArg Prod.snd hpair
            subst hr
            subst hc
            obtain ⟨hrlt, hreq⟩ := row_names_lookup_sound hrow
            obtain ⟨hclt, hceq⟩ := col_names_lookup_sound h26 hcol
            refine ⟨hrlt, hclt, ?_⟩
            conv_lhs => rw [← List.take_append_drop 1 s]
            rw [hreq, hceq]
  · intro s hpanic
    by_cases hlen : s.length < 2
    · unfold Board.parse_string_to_action at hpanic
      rw [if_pos hlen] at hpanic
      exact ParseResult.noConfusion hpanic
    · by_cases hcont : 128 ≤ s.getD 1 0 ∧ s.getD 1 0 < 192
      · exact hcont
      · rw [parse_unfold b s hlen hcont] at hpanic
        cases hrow : row_names_lookup b.size (s.drop 1) with
        | none =>
          rw [hrow] at hpanic
          cases hcol : col_names_lookup b.size (s.take 1) with
          | none =>
            rw [hcol] at hpanic
            exact ParseResult.noConfusion hpanic
          | some cc =>
            rw [hcol] at hpanic
            exact ParseResult.noConfusion hpanic
        | some rr =>
          rw [hrow] at hpanic
          cases hcol : col_names_lookup b.size (s.take 1) with
          | none =>
            rw [hcol] at hpanic
            exact ParseResult.noConfusion hpanic
          | some cc =>
            rw [hcol] at hpanic
            exact ParseResult.noConfusion hpanic

theorem C4_witness :
    (Board.new 3 3).parse_string_to_action ([65 + 0] ++ decBytes 1) = .ok (3 - 1, 0) ∧
    move_string_of_action 3 (3 - 1, 0) = [65 + 0] ++ decBytes (3 + 1 - 1) :=
  (C4_amended_parse_format (b := Board.new 3 3) (by decide)).1 1 0
    (by decide) (by decide) (by decide)

/-! ### Claim C10 -/

/-- A legal action on a well-formed, running board always succeeds. -/
theorem make_action_ok_of_legal {size k : ℕ} {b : Board} (wf : BoardWF size k b)
    (hnone : b.outcome = none) {a : Action} (ha : a ∈ b.legal_actions_indexset) :
    ∃ b2, b.make_action a = .ok b2 := by
  rw [wf.legal_eq, Finset.mem_filter, mem_allActions] at ha
  obtain ⟨⟨ha1, ha2⟩, hvac⟩ := ha
  rw [← wf.size_eq] at ha1 ha2
  unfold Board.make_action
  have hover : b.is_game_over = false := by simp [Board.is_game_over, hnone]
  rw [hover]
  simp only [Bool.false_eq_true, if_false]
  have hbounds : (b.action_to_base_board_location a).1 < b.base_board_size ∧
      (b.action_to_base_board_location a).2 < b.base_board_size := by
    simp only [Board.action_to_base_board_location, Board.base_board_size]
    omega
  rw [if_pos hbounds, hvac]
  simp only [Bool.false_eq_true, if_false]
  have hsome : (b.place_stone a).check_outcome a =
      some ((b.place_stone a).check_outcome_with (checkLines b.n_in_a_row a)) := by
    unfold Board.check_outcome Board.action_to_check_indices
    rw [if_pos (show a.1 < (b.place_stone a).size ∧ a.2 < (b.place_stone a).size
      from ⟨ha1, ha2⟩)]
    rfl
  rw [hsome]
  exact ⟨_, rfl⟩

/-- The rollout loop reaches a finished game within
`size² − num_stones_placed` moves: each successful move shrinks the legal
set by one, and the move that fills the board (or completes a line) sets the
outcome. -/
theorem rollout_fuel_game_over {size k : ℕ} (picker : Board → Action)
    (hpick : ∀ b2 : Board, b2.is_game_over = false → b2.legal_actions_indexset.Nonempty →
      picker b2 ∈ b2.legal_actions_indexset) :
    ∀ (fuel : ℕ) (b : Board), BoardWF size k b → size * size - b.num_stones_placed ≤ fuel →
      (rollout_fuel picker fuel b).is_game_over = true := by
  intro fuel
  induction fuel with
  | zero =>
    intro b wf hle
    rw [rollout_fuel]
    by_contra hover
    rw [Bool.not_eq_true] at hover
    have hnone : b.outcome = none := by
      cases hb : b.outcome with
      | none => rfl
      | some o =>
        rw [Board.is_game_over, hb] at hover
        simp at hover
    have := wf.stones_lt_of_not_over hnone
    omega
  | succ fuel ih =>
    intro b wf hle
    rw [rollout_fuel]
    by_cases hover : b.is_game_over = true
    · rw [if_pos hover]
      exact hover
    · rw [Bool.not_eq_true] at hover
      rw [hover]
      simp only [Bool.false_eq_true, if_false]
      have hnone : b.outcome = none := by
        cases hb : b.outcome with
        | none => rfl
        | some o =>
          rw [Board.is_game_over, hb] at hover
          simp at hover
      have hlt := wf.stones_lt_of_not_over hnone
      have hne : b.legal_actions_indexset.Nonempty := by
        rw [← Finset.card_pos, wf.card_eq]
        omega
      obtain ⟨b2, hok⟩ := make_action_ok_of_legal wf hnone (hpick b hover hne)
      rw [hok]
      have wf2 := boardWF_step wf hok
      have hnum2 : b2.num_stones_placed = b.num_stones_placed + 1 := by
        obtain ⟨_, _, _, _, hb2⟩ := make_action_ok_elim hok
        subst hb2
        rfl
      exact ih b2 wf2 (by omega)

/-- C10: rollout terminates after at most `size² − num_stones_placed` moves
on every reachable board: running the loop with that much fuel (for any
choice function standing in for `get_random_action`) always reaches a
game-over board, so the unbounded Rust `while` loop exits within the same
bound. -/
theorem C10_rollout_terminates {size k : ℕ} {b : Board} (h : Reachable size k b)
    (picker : Board → Action)
    (hpick : ∀ b2 : Board, b2.is_game_over = false → b2.legal_actions_indexset.Nonempty →
      picker b2 ∈ b2.legal_actions_indexset) :
    (rollout_fuel picker (size * size - b.num_stones_placed) b).is_game_over = true :=
  rollout_fuel_game_over picker hpick _ b (reachable_wf h) le_rfl

theorem C10_witness :
    (rollout_fuel (fun b3 => b3.legal_actions_indexset.toList.headD (0, 0))
      (3 * 3 - (Board.new 3 3).num_stones_placed) (Board.new 3 3)).is_game_over = true :=
  C10_rollout_terminates (Reachable.base (by norm_num) (by norm_num) (by norm_num)) _
    (fun b3 _ hne => by
      cases hl : b3.legal_actions_indexset.toList with
      | nil =>
        exfalso
        rw [Finset.toList_eq_nil] at hl
        rw [hl] at hne
        exact Finset.not_nonempty_empty hne
      | cons x rest =>
        have hx : x ∈ b3.legal_actions_indexset.toList := by
          rw [hl]
          exact List.mem_cons_self x rest
        simpa using Finset.mem_toList.mp hx)

/-! ### Node and search-tree lemmas -/

theorem setChildren_children (n : Node) (c : List Node) : (n.setChildren c).children = c := by
  cases n
  rfl

theorem setChildren_action (n : Node) (c : List Node) : (n.setChildren c).action = n.action := by
  cases n
  rfl

theorem setChildren_prior (n : Node) (c : List Node) : (n.setChildren c).prior = n.prior := by
  cases n
  rfl

theorem setChildren_turn (n : Node) (c : List Node) : (n.setChildren c).turn = n.turn := by
  cases n
  rfl

theorem setChildren_visit (n : Node) (c : List Node) :
    (n.setChildren c).visit_count = n.visit_count := by
  cases n
  rfl

theorem update_children (n : Node) (v : ℚ) : (n.update v).children = n.children := by
  cases n
  rfl

theorem update_visit (n : Node) (v : ℚ) : (n.update v).visit_count = n.visit_count + 1 := by
  cases n
  rfl

theorem update_action (n : Node) (v : ℚ) : (n.update v).action = n.action := by
  cases n
  rfl

theorem update_prior (n : Node) (v : ℚ) : (n.update v).prior = n.prior := by
  cases n
  rfl

theorem update_turn (n : Node) (v : ℚ) : (n.update v).turn = n.turn := by
  cases n
  rfl

theorem update_total (n : Node) (v : ℚ) :
    (n.update v).total_value =
      match n.turn with
      | .white => qadd n.total_value v
      | .black => qsub n.total_value v := by
  cases n
  rfl

theorem withPrior_action (n : Node) (p : ℚ) : (n.withPrior p).action = n.action := by
  cases n
  rfl

theorem withPrior_children (n : Node) (p : ℚ) : (n.withPrior p).children = n.children := by
  cases n
  rfl

theorem withPrior_visit (n : Node) (p : ℚ) : (n.withPrior p).visit_count = n.visit_count := by
  cases n
  rfl

theorem withPrior_prior (n : Node) (p : ℚ) : (n.withPrior p).prior = p := by
  cases n
  rfl

theorem expandNode_action (M : Oracle) (n : Node) (b : Board) :
    (expandNode M n b).action = n.action := by
  unfold expandNode
  split
  · rfl
  · rw [setChildren_action]

theorem expandNode_prior (M : Oracle) (n : Node) (b : Board) :
    (expandNode M n b).prior = n.prior := by
  unfold expandNode
  split
  · rfl
  · rw [setChildren_prior]

theorem expandNode_turn (M : Oracle) (n : Node) (b : Board) :
    (expandNode M n b).turn = n.turn := by
  unfold expandNode
  split
  · rfl
  · rw [setChildren_turn]

theorem expandNode_visit (M : Oracle) (n : Node) (b : Board) :
    (expandNode M n b).visit_count = n.visit_count := by
  unfold expandNode
  split
  · rfl
  · rw [setChildren_visit]

theorem bestScan_isSome_acc (M : Oracle) (pv : ℕ) :
    ∀ (l : List Node) (i : ℕ) (p : ℕ × ℚ), (bestScan M pv l i (some p)).isSome = true := by
  intro l
  induction l with
  | nil => intro i p; rfl
  | cons c rest ih =>
    intro i p
    obtain ⟨bi, bs⟩ := p
    show (bestScan M pv rest (i + 1)
      (if bs < c.ucb M pv then some (i, c.ucb M pv) else some (bi, bs))).isSome = true
    by_cases hlt : bs < c.ucb M pv
    · rw [if_pos hlt]
      exact ih (i + 1) _
    · rw [if_neg hlt]
      exact ih (i + 1) _

theorem get_best_child_idx_none_iff {M : Oracle} {n : Node} :
    n.get_best_child_idx M = none ↔ n.children = [] := by
  unfold Node.get_best_child_idx
  constructor
  · intro h
    cases hc : n.children with
    | nil => rfl
    | cons c rest =>
      exfalso
      rw [hc] at h
      rw [Option.map_eq_none'] at h
      have h2 : bestScan M n.visit_count rest 1 (some (0, c.ucb M n.visit_count)) = none := h
      have h3 := bestScan_isSome_acc M n.visit_count rest 1 (0, c.ucb M n.visit_count)
      rw [h2] at h3
      exact Bool.noConfusion h3
  · intro h
    rw [h]
    rfl

theorem bestScan_fst_lt (M : Oracle) (pv : ℕ) :
    ∀ (l : List Node) (i : ℕ) (acc : Option (ℕ × ℚ)),
      (∀ p, acc = some p → p.1 < i) →
      ∀ p2, bestScan M pv l i acc = some p2 → p2.1 < i + l.length := by
  intro l
  induction l with
  | nil =>
    intro i acc hacc p2 h
    have h2 : acc = some p2 := h
    simpa using hacc p2 h2
  | cons c rest ih =>
    intro i acc hacc p2 h
    cases acc with
    | none =>
      have h2 : bestScan M pv rest (i + 1) (some (i, c.ucb M pv)) = some p2 := h
      have hacc2 : ∀ p, some (i, c.ucb M pv) = some p → p.1 < i + 1 := by
        intro p hp
        cases Option.some.inj hp
        simp
      have := ih (i + 1) _ hacc2 p2 h2
      simp only [List.length_cons]
      omega
    | some q =>
      obtain ⟨bi, bs⟩ := q
      have h3 : bestScan M pv rest (i + 1)
          (if bs < c.ucb M pv then some (i, c.ucb M pv) else some (bi, bs)) = some p2 := h
      by_cases hlt : bs < c.ucb M pv
      · rw [if_pos hlt] at h3
        have hacc2 : ∀ p, some (i, c.ucb M pv) = some p → p.1 < i + 1 := by
          intro p hp
          cases Option.some.inj hp
          simp
        have := ih (i + 1) _ hacc2 p2 h3
        simp only [List.length_cons]
        omega
      · rw [if_neg hlt] at h3
        have hacc2 : ∀ p, some (bi, bs) = some p → p.1 < i + 1 := by
          intro p hp
          cases Option.some.inj hp
          have := hacc (bi, bs) rfl
          simp at this ⊢
          omega
        have := ih (i + 1) _ hacc2 p2 h3
        simp only [List.length_cons]
        omega

theorem get_best_child_idx_lt {M : Oracle} {n : Node} {i : ℕ}
    (h : n.get_best_child_idx M = some i) : i < n.children.length := by
  unfold Node.get_best_child_idx at h
  cases hb : bestScan M n.visit_count n.children 0 none with
  | none =>
    rw [hb] at h
    exact Option.noConfusion h
  | some p =>
    rw [hb] at h
    have h2 : some p.1 = some i := h
    have hi : p.1 = i := Option.some.inj h2
    have hlt := bestScan_fst_lt M n.visit_count n.children 0 none
      (fun p hp => Option.noConfusion hp) p hb
    rw [← hi]
    simpa using hlt

theorem iterateNodeF_meta (M : Oracle) : ∀ (fuel : ℕ) (n : Node) (b : Board),
    (iterateNodeF M fuel n b).1.action = n.action ∧
    (iterateNodeF M fuel n b).1.prior = n.prior ∧
    (iterateNodeF M fuel n b).1.turn = n.turn := by
  intro fuel
  induction fuel with
  | zero => intro n b; exact ⟨rfl, rfl, rfl⟩
  | succ fuel ih =>
    intro n b
    cases hbest : n.get_best_child_idx M with
    | none =>
      have hres : (iterateNodeF M (fuel + 1) n b).1 =
          (expandNode M n b).update (expandValue M b) := by
        simp only [iterateNodeF, hbest]
      rw [hres, update_action, update_prior, update_turn,
        expandNode_action, expandNode_prior, expandNode_turn]
      exact ⟨rfl, rfl, rfl⟩
    | some i =>
      cases hc : n.children[i]? with
      | none =>
        have hres : (iterateNodeF M (fuel + 1) n b).1 = n := by
          simp only [iterateNodeF, hbest, hc]
        rw [hres]
        exact ⟨rfl, rfl, rfl⟩
      | some c =>
        have hres : (iterateNodeF M (fuel + 1) n b).1 =
            (n.setChildren (n.children.set i
              (iterateNodeF M fuel c (replayAction b c.action)).1)).update
              (iterateNodeF M fuel c (replayAction b c.action)).2 := by
          simp only [iterateNodeF, hbest, hc]
        rw [hres, update_action, update_prior, update_turn,
          setChildren_action, setChildren_prior, setChildren_turn]
        exact ⟨rfl, rfl, rfl⟩

theorem iterateNodeF_children_meta (M : Oracle) (fuel : ℕ) (n : Node) (b : Board)
    (hne : n.children ≠ []) :
    (iterateNodeF M fuel n b).1.children.map (fun c => (c.action, c.prior)) =
      n.children.map (fun c => (c.action, c.prior)) := by
  cases fuel with
  | zero => rfl
  | succ fuel =>
    cases hbest : n.get_best_child_idx M with
    | none => exact absurd (get_best_child_idx_none_iff.mp hbest) hne
    | some i =>
      cases hc : n.children[i]? with
      | none =>
        have hres : (iterateNodeF M (fuel + 1) n b).1 = n := by
          simp only [iterateNodeF, hbest, hc]
        rw [hres]
      | some c =>
        have hres : (iterateNodeF M (fuel + 1) n b).1 =
            (n.setChildren (n.children.set i
              (iterateNodeF M fuel c (replayAction b c.action)).1)).update
              (iterateNodeF M fuel c (replayAction b c.action)).2 := by
          simp only [iterateNodeF, hbest, hc]
        rw [hres, update_children, setChildren_children, List.map_set]
        obtain ⟨hclen, hcget⟩ := List.getElem?_eq_some_iff.mp hc
        apply List.ext_getElem
        · simp
        · intro j h1 h2
          rw [List.getElem_set]
          split
          · rename_i hij
            subst hij
            rw [List.getElem_map]
            have hmeta := iterateNodeF_meta M fuel c (replayAction b c.action)
            rw [hmeta.1, hmeta.2.1, hcget]
          · rfl

theorem iterateNode_children_meta (M : Oracle) (n : Node) (b : Board)
    (hne : n.children ≠ []) :
    (iterateNode M n b).1.children.map (fun c => (c.action, c.prior)) =
      n.children.map (fun c => (c.action, c.prior)) :=
  iterateNodeF_children_meta M n.treeSize n b hne

theorem iterLoop_children_meta (M : Oracle) (b : Board) :
    ∀ (count : ℕ) (r : Node), r.children ≠ [] →
      (iterLoop M b count r).children.map (fun c => (c.action, c.prior)) =
        r.children.map (fun c => (c.action, c.prior)) := by
  intro count
  induction count with
  | zero => intro r hne; rfl
  | succ count ih =>
    intro r hne
    rw [iterLoop]
    have h1 := iterateNode_children_meta M r b hne
    have hne2 : (iterateNode M r b).1.children ≠ [] := by
      intro hcon
      rw [hcon] at h1
      exact hne (List.map_eq_nil_iff.mp h1.symm)
    rw [ih _ hne2, h1]

theorem chooseFold_mem : ∀ (rest : List Node) (acc : Node),
    rest.foldl (fun chosen child =>
      if chosen.visit_count < child.visit_count then child else chosen) acc ∈ acc :: rest := by
  intro rest
  induction rest with
  | nil => intro acc; exact List.mem_cons_self _ _
  | cons d rest ih =>
    intro acc
    rw [List.foldl_cons]
    by_cases hlt : acc.visit_count < d.visit_count
    · rw [if_pos hlt]
      exact List.mem_cons_of_mem acc (ih d)
    · rw [if_neg hlt]
      rcases List.mem_cons.mp (ih acc) with h | h
    

      · rw [h]
        exact List.mem_cons_self _ _
      · exact List.mem_cons_of_mem acc (List.mem_cons_of_mem d h)

theorem chooseMostVisited_mem : ∀ (l : List Node), l ≠ [] →
    ∃ c, chooseMostVisited l = some c ∧ c ∈ l := by
  intro l hl
  cases l with
  | nil => exact absurd rfl hl
  | cons c rest => exact ⟨_, rfl, chooseFold_mem rest c⟩

/-! ### Claim C6 -/

/-- C6: on every reachable non-terminal board and any iteration budget of at
least one, in both deterministic and exploratory mode, `get_best_action`
returns an action belonging to the board's legal-action set as it was before
the call.  The oracle, the Dirichlet draw and the `WeightedIndex` sampler are
external collaborators and universally quantified; the sampler's contract is
that of `WeightedIndex` (an index into the nonempty weight list). -/
theorem C6_best_action_legal {size k : ℕ} {b : Board} (h : Reachable size k b)
    (hover : b.is_game_over = false) (n_iterations : ℕ) (_hn : 1 ≤ n_iterations)
    (M : Oracle) (noise : ℕ → ℚ) (sampler : List ℚ → ℕ)
    (hsampler : ∀ w : List ℚ, w ≠ [] → sampler w < w.length)
    (exploratory_play : Bool) :
    ∃ a : Action,
      (MCTS.get_best_action M noise sampler (MCTS.new b n_iterations) exploratory_play).1 =
        some a ∧ a ∈ b.legal_actions := by
  have wf := reachable_wf h
  have hnone : b.outcome = none := by
    cases hb : b.outcome with
    | none => rfl
    | some o =>
      rw [Board.is_game_over, hb] at hover
      simp at hover
  have hlt := wf.stones_lt_of_not_over hnone
  have hne : b.legal_actions_indexset.Nonempty := by
    rw [← Finset.card_pos, wf.card_eq]
    omega
  obtain ⟨x, hx⟩ := hne
  have hxr : x.1 < b.size ∧ x.2 < b.size := by
    have hx2 := hx
    rw [wf.legal_eq, Finset.mem_filter, mem_allActions] at hx2
    rw [wf.size_eq]
    exact hx2.1
  have hxmem : x ∈ legalList b := by
    unfold legalList
    rw [List.mem_filter]
    constructor
    · simp only [List.mem_flatMap, List.mem_map, List.mem_range]
      exact ⟨x.1, hxr.1, x.2, hxr.2, rfl⟩
    · simpa using hx
  have hllne : legalList b ≠ [] := fun hcon => by
    rw [hcon] at hxmem
    exact absurd hxmem (List.not_mem_nil x)
  simp only [MCTS.get_best_action, MCTS.new]
  set root1 : Node := expandNode M (Node.new none b.turn 0) b with hroot1
  have hroot1c : root1.children = expandChildren M (Node.new none b.turn 0) b := by
    rw [hroot1]
    unfold expandNode
    rw [if_neg (by rw [hover]; exact Bool.false_ne_true), setChildren_children]
    rfl
  have hacts1 : root1.children.map (fun c => c.action) = (legalList b).map some := by
    rw [hroot1c]
    unfold expandChildren
    rw [List.map_map]
    rfl
  have hr1ne : root1.children ≠ [] := by
    intro hcon
    rw [hcon] at hacts1
    have := List.map_eq_nil_iff.mp hacts1.symm
    exact hllne this
  set root2 : Node := inject_exploration_noise noise root1 with hroot2
  have hacts2 : root2.children.map (fun c => c.action) =
      root1.children.map (fun c => c.action) := by
    rw [hroot2]
    unfold inject_exploration_noise
    split
    · rfl
    · rw [setChildren_children]
      apply List.ext_getElem
      · simp
      · intro j h1 h2
        simp only [List.getElem_map, List.getElem_mapIdx, withPrior_action]
  have hr2ne : root2.children ≠ [] := by
    intro hcon
    rw [hcon] at hacts2
    have := List.map_eq_nil_iff.mp hacts2.symm
    exact hr1ne this
  set root3 : Node := iterLoop M b n_iterations root2 with hroot3
  have hloop := iterLoop_children_meta M b n_iterations root2 hr2ne
  have hacts3 : root3.children.map (fun c => c.action) =
      root2.children.map (fun c => c.action) := by
    have e1 : root3.children.map (fun c => c.action) =
        (root3.children.map (fun c => (c.action, c.prior))).map Prod.fst := by
      rw [List.map_map]
      rfl
    have e2 : root2.children.map (fun c => c.action) =
        (root2.children.map (fun c => (c.action, c.prior))).map Prod.fst := by
      rw [List.map_map]
      rfl
    rw [e1, e2, hroot3, hloop]
  have hacts : root3.children.map (fun c => c.action) = (legalList b).map some := by
    rw [hacts3, hacts2, hacts1]
  have hmem_of : ∀ c ∈ root3.children, ∃ a : Action, c.action = some a ∧ a ∈ b.legal_actions := by
    intro c hc
    have : c.action ∈ root3.children.map (fun c2 => c2.action) := List.mem_map_of_mem _ hc
    rw [hacts] at this
    rw [List.mem_map] at this
    obtain ⟨a, ha, haeq⟩ := this
    refine ⟨a, haeq.symm, ?_⟩
    unfold legalList at ha
    rw [List.mem_filter] at ha
    have := ha.2
    simpa [Board.legal_actions] using this
  have hr3ne : root3.children ≠ [] := by
    intro hcon
    rw [hcon] at hacts
    have := List.map_eq_nil_iff.mp hacts.symm
    exact hllne this
  cases exploratory_play with
  | false =>
    simp only [Bool.false_eq_true, if_false]
    obtain ⟨c, hcm, hcmem⟩ := chooseMostVisited_mem root3.children hr3ne
    rw [hcm]
    exact hmem_of c hcmem
  | true =>
    simp only [if_true]
    have hplen : (root3.children.map fun c =>
        qdiv (c.visit_count : ℚ) (root3.visit_count : ℚ)) ≠ [] := by
      intro hcon
      exact hr3ne (List.map_eq_nil_iff.mp hcon)
    have hslt := hsampler _ hplen
    rw [List.length_map] at hslt
    have hsome : root3.children[sampler (root3.children.map fun c =>
        qdiv (c.visit_count : ℚ) (root3.visit_count : ℚ))]? =
        some (root3.children.get ⟨sampler (root3.children.map fun c =>
          qdiv (c.visit_count : ℚ) (root3.visit_count : ℚ)), hslt⟩) :=
      List.getElem?_eq_getElem hslt
    rw [hsome]
    exact hmem_of _ (List.getElem_mem hslt)

theorem C6_witness :
    ∃ a : Action,
      (MCTS.get_best_action
        { policies := fun _ _ => 0, value := fun _ => 0, sqrtQ := fun q => q,
          log10Q := fun q => q } (fun _ => 1) (fun _ => 0)
        (MCTS.new (Board.new 3 3) 1) false).1 = some a ∧
      a ∈ (Board.new 3 3).legal_actions :=
  C6_best_action_legal (Reachable.base (by norm_num) (by norm_num) (by norm_num))
    (by decide) 1 (by norm_num) _ _ _
    (fun w hw => by
      cases w with
      | nil => exact absurd rfl hw
      | cons y ys => simp)
    false

/-! ### Claim C9 -/

/-- C9 counterexample: exploration noise is injected even with
`exploratory_play = false` (deterministic play, not self-play).  With a
zero-prior oracle and the constant noise vector 1, after a deterministic
`get_best_action` call the first root child's prior is
`(1−ε)·0 + ε·1 = 1/4`, not the un-noised 0. -/
theorem C9_counterexample :
    ((MCTS.get_best_action
      { policies := fun _ _ => 0, value := fun _ => 0, sqrtQ := fun q => q,
        log10Q := fun q => q } (fun _ => 1) (fun _ => 0)
      (MCTS.new (Board.new 3 3) 0) false).2.root.children.headD
        (Node.new none .black 0)).prior = mkRat 1 4 := by
  decide

/-- C9 (amended): root Dirichlet noise replaces each root child's prior by
`(1−ε)·prior + ε·noiseᵢ` and is skipped exactly when fewer than two root
children exist, but it is applied on **every** `get_best_action` call — in
both exploratory (self-play) and deterministic mode; for either flag value
the root priors of the final search state are exactly the noised priors of
the eagerly expanded root (the iterations never rewrite priors). -/
theorem C9_amended_noise_both_modes {size k : ℕ} {b : Board} (h : Reachable size k b)
    (hover : b.is_game_over = false) (M : Oracle) (noise : ℕ → ℚ) (sampler : List ℚ → ℕ)
    (n_iterations : ℕ) (exploratory_play : Bool) :
    (∀ root : Node, root.children.length < 2 →
      inject_exploration_noise noise root = root) ∧
    (∀ root : Node, 2 ≤ root.children.length →
      (inject_exploration_noise noise root).children.map Node.prior =
        root.children.mapIdx (fun i c =>
          qadd (qmul (qsub 1 DIRICHLET_EPSILON) c.prior)
            (qmul DIRICHLET_EPSILON (noise i)))) ∧
    ((MCTS.get_best_action M noise sampler
        (MCTS.new b n_iterations) exploratory_play).2.root.children.map Node.prior =
      (inject_exploration_noise noise
        (expandNode M (Node.new none b.turn 0) b)).children.map Node.prior) := by
  refine ⟨?_, ?_, ?_⟩
  · intro root hlen
    unfold inject_exploration_noise
    rw [if_pos hlen]
  · intro root hlen
    unfold inject_exploration_noise
    rw [if_neg (by omega), setChildren_children]
    apply List.ext_getElem
    · simp
    · intro j h1 h2
      simp only [List.getElem_map, List.getElem_mapIdx, withPrior_prior]
  · have wf := reachable_wf h
    have hnone : b.outcome = none := by
      cases hb : b.outcome with
      | none => rfl
      | some o =>
        rw [Board.is_game_over, hb] at hover
        simp at hover
    have hlt := wf.stones_lt_of_not_over hnone
    have hne : b.legal_actions_indexset.Nonempty := by
      rw [← Finset.card_pos, wf.card_eq]
      omega
    obtain ⟨x, hx⟩ := hne
    have hxr : x.1 < b.size ∧ x.2 < b.size := by
      have hx2 := hx
      rw [wf.legal_eq, Finset.mem_filter, mem_allActions] at hx2
      rw [wf.size_eq]
      exact hx2.1
    have hxmem : x ∈ legalList b := by
      unfold legalList
      rw [List.mem_filter]
      constructor
      · simp only [List.mem_flatMap, List.mem_map, List.mem_range]
        exact ⟨x.1, hxr.1, x.2, hxr.2, rfl⟩
      · simpa using hx
    have hllne : legalList b ≠ [] := fun hcon => by
      rw [hcon] at hxmem
      exact absurd hxmem (List.not_mem_nil x)
    simp only [MCTS.get_best_action, MCTS.new]
    set root1 : Node := expandNode M (Node.new none b.turn 0) b with hroot1
    have hroot1c : root1.children = expandChildren M (Node.new none b.turn 0) b := by
      rw [hroot1]
      unfold expandNode
      rw [if_neg (by rw [hover]; exact Bool.false_ne_true), setChildren_children]
      rfl
    have hr1ne : root1.children ≠ [] := by
      rw [hroot1c]
      unfold expandChildren
      intro hcon
      exact hllne (List.map_eq_nil_iff.mp hcon)
    set root2 : Node := inject_exploration_noise noise root1 with hroot2
    have hr2ne : root2.children ≠ [] := by
      rw [hroot2]
      unfold inject_exploration_noise
      split
      · exact hr1ne
      · rw [setChildren_children]
        intro hcon
        exact hr1ne (List.mapIdx_eq_nil_iff.mp hcon)
    have hloop := iterLoop_children_meta M b n_iterations root2 hr2ne
    have e1 : (iterLoop M b n_iterations root2).children.map Node.prior =
        ((iterLoop M b n_iterations root2).children.map
          (fun c => (c.action, c.prior))).map Prod.snd := by
      rw [List.map_map]
      rfl
    have e2 : root2.children.map Node.prior =
        (root2.children.map (fun c => (c.action, c.prior))).map Prod.snd := by
      rw [List.map_map]
      rfl
    rw [e1, hloop, ← e2]

theorem C9_witness :
    (∀ root : Node, root.children.length < 2 →
      inject_exploration_noise (fun _ => 1) root = root) ∧
    (∀ root : Node, 2 ≤ root.children.length →
      (inject_exploration_noise (fun _ => 1) root).children.map Node.prior =
        root.children.mapIdx (fun i c =>
          qadd (qmul (qsub 1 DIRICHLET_EPSILON) c.prior)
            (qmul DIRICHLET_EPSILON ((fun _ => (1 : ℚ)) i)))) ∧
    ((MCTS.get_best_action
        { policies := fun _ _ => 0, value := fun _ => 0, sqrtQ := fun q => q,
          log10Q := fun q => q } (fun _ => 1) (fun _ => 0)
        (MCTS.new (Board.new 3 3) 1) false).2.root.children.map Node.prior =
      (inject_exploration_noise (fun _ => 1)
        (expandNode
          { policies := fun _ _ => 0, value := fun _ => 0, sqrtQ := fun q => q,
            log10Q := fun q => q }
          (Node.new none (Board.new 3 3).turn 0) (Board.new 3 3))).children.map Node.prior) :=
  C9_amended_noise_both_modes (Reachable.base (by norm_num) (by norm_num) (by norm_num))
    (by decide) _ _ _ 1 false

/-! ### Claim C8 -/

set_option maxHeartbeats 1000000 in
theorem bestScan_le (M : Oracle) (pv : ℕ) :
    ∀ (l : List Node) (i : ℕ) (acc : Option (ℕ × ℚ)) (p2 : ℕ × ℚ),
      bestScan M pv l i acc = some p2 →
      (∀ c ∈ l, c.ucb M pv ≤ p2.2) ∧ (∀ q, acc = some q → q.2 ≤ p2.2) := by
  intro l
  induction l with
  | nil =>
    intro i acc p2 h
    have h2 : acc = some p2 := h
    refine ⟨fun c hc => absurd hc (List.not_mem_nil c), ?_⟩
    intro q hq
    rw [hq] at h2
    cases Option.some.inj h2
    exact le_refl _
  | cons c rest ih =>
    intro i acc p2 h
    cases acc with
    | none =>
      have h2 : bestScan M pv rest (i + 1) (some (i, c.ucb M pv)) = some p2 := h
      obtain ⟨hrest, hacc⟩ := ih (i + 1) _ p2 h2
      have hcle : c.ucb M pv ≤ p2.2 := hacc (i, c.ucb M pv) rfl
      refine ⟨?_, fun q hq => Option.noConfusion hq⟩
      intro c2 hc2
      rcases List.mem_cons.mp hc2 with rfl | hmem
      · exact hcle
      · exact hrest c2 hmem
    | some q0 =>
      obtain ⟨bi, bs⟩ := q0
      have h3 : bestScan M pv rest (i + 1)
          (if bs < c.ucb M pv then some (i, c.ucb M pv) else some (bi, bs)) = some p2 := h
      by_cases hlt : bs < c.ucb M pv
      · rw [if_pos hlt] at h3
        obtain ⟨hrest, hacc⟩ := ih (i + 1) _ p2 h3
        have hs : c.ucb M pv ≤ p2.2 := hacc _ rfl
        refine ⟨?_, ?_⟩
        · intro c2 hc2
          rcases List.mem_cons.mp hc2 with rfl | hmem
          · exact hs
          · exact hrest c2 hmem
        · intro q hq
          cases Option.some.inj hq
          exact le_trans (le_of_lt hlt) hs
      · rw [if_neg hlt] at h3
        obtain ⟨hrest, hacc⟩ := ih (i + 1) _ p2 h3
        have hbs : bs ≤ p2.2 := hacc _ rfl
        refine ⟨?_, ?_⟩
        · intro c2 hc2
          rcases List.mem_cons.mp hc2 with rfl | hmem
          · exact le_trans (not_lt.mp hlt) hbs
          · exact hrest c2 hmem
        · intro q hq
          cases Option.some.inj hq
          exact hbs

theorem bestScan_chosen (M : Oracle) (pv : ℕ) :
    ∀ (l : List Node) (i : ℕ) (acc : Option (ℕ × ℚ)) (p2 : ℕ × ℚ),
      bestScan M pv l i acc = some p2 →
      acc = some p2 ∨
      ∃ j, ∃ hj : j < l.length, p2 = (i + j, (l.get ⟨j, hj⟩).ucb M pv) := by
  intro l
  induction l with
  | nil =>
    intro i acc p2 h
    exact Or.inl h
  | cons c rest ih =>
    intro i acc p2 h
    have hshift : (∃ j, ∃ hj : j < rest.length,
        p2 = (i + 1 + j, (rest.get ⟨j, hj⟩).ucb M pv)) →
        ∃ j, ∃ hj : j < (c :: rest).length, p2 = (i + j, ((c :: rest).get ⟨j, hj⟩).ucb M pv) := by
      rintro ⟨j, hj, hp⟩
      refine ⟨j + 1, by simpa using Nat.succ_lt_succ hj, ?_⟩
      rw [hp]
      congr 1
      omega
    have hzero : some (i, c.ucb M pv) = some p2 →
        ∃ j, ∃ hj : j < (c :: rest).length, p2 = (i + j, ((c :: rest).get ⟨j, hj⟩).ucb M pv) := by
      intro hl
      cases Option.some.inj hl
      exact ⟨0, by simp, by simp⟩
    cases acc with
    | none =>
      have h2 : bestScan M pv rest (i + 1) (some (i, c.ucb M pv)) = some p2 := h
      rcases ih (i + 1) _ p2 h2 with hl | hr
      · exact Or.inr (hzero hl)
      · exact Or.inr (hshift hr)
    | some q0 =>
      obtain ⟨bi, bs⟩ := q0
      have h3 : bestScan M pv rest (i + 1)
          (if bs < c.ucb M pv then some (i, c.ucb M pv) else some (bi, bs)) = some p2 := h
      by_cases hlt : bs < c.ucb M pv
      · rw [if_pos hlt] at h3
        rcases ih (i + 1) _ p2 h3 with hl | hr
        · exact Or.inr (hzero hl)
        · exact Or.inr (hshift hr)
      · rw [if_neg hlt] at h3
        rcases ih (i + 1) _ p2 h3 with hl | hr
        · exact Or.inl hl
        · exact Or.inr (hshift hr)

theorem get_best_child_idx_is_max {M : Oracle} {n : Node} {i : ℕ}
    (h : n.get_best_child_idx M = some i) :
    ∃ hi : i < n.children.length,
      ∀ j (hj : j < n.children.length),
        (n.children.get ⟨j, hj⟩).ucb M n.visit_count ≤
          (n.children.get ⟨i, hi⟩).ucb M n.visit_count := by
  unfold Node.get_best_child_idx at h
  cases hb : bestScan M n.visit_count n.children 0 none with
  | none =>
    rw [hb] at h
    exact Option.noConfusion h
  | some p =>
    rw [hb] at h
    have h2 : some p.1 = some i := h
    have hip : p.1 = i := Option.some.inj h2
    obtain ⟨hle, _⟩ := bestScan_le M n.visit_count n.children 0 none p hb
    rcases bestScan_chosen M n.visit_count n.children 0 none p hb with hl | hr
    · exact Option.noConfusion hl
    · obtain ⟨j, hj, hp⟩ := hr
      have hpi : p.1 = 0 + j := by rw [hp]
      have hji : j = i := by omega
      subst hji
      have hi : j < n.children.length := hj
      refine ⟨hi, ?_⟩
      intro j2 hj2
      have hmem := hle (n.children.get ⟨j2, hj2⟩) (List.get_mem n.children j2 hj2)
      have hp2 : p.2 = (n.children.get ⟨j, hj⟩).ucb M n.visit_count := by rw [hp]
      rw [hp2] at hmem
      exact hmem

/-- C8 counterexample: the evaluation value is canonically from Black's
perspective and `update` keys its sign on the node's own player-to-move, so
a Black-favorable +1 *increases* the total of a node where White is to move
— the accumulated value is relative to the player who just moved, not to
the node's own player-to-move; and `get_best_child` reads the child value
un-negated: with zero priors it picks the child of average value +2 (index
0), whereas the spec's negate-on-read selection would pick the child of
average value −2 (index 1). -/
theorem C8_counterexample :
    ((Node.mk none [] 0 0 0 Player.white).update 1).total_value = 1 ∧
    (Node.mk none [Node.mk (some (0, 0)) [] 2 0 1 .white,
        Node.mk (some (0, 1)) [] (-2) 0 1 .white] 0 0 2 .black).get_best_child_idx
      { policies := fun _ _ => 0, value := fun _ => 0, sqrtQ := fun q => q,
        log10Q := fun q => q } = some 0 ∧
    (Node.mk none [Node.mk (some (0, 0)) [] 2 0 1 .white,
        Node.mk (some (0, 1)) [] (-2) 0 1 .white] 0 0 2 .black).get_best_child_idx_negating
      { policies := fun _ _ => 0, value := fun _ => 0, sqrtQ := fun q => q,
        log10Q := fun q => q } = some 1 :=
  ⟨by decide, by decide, by decide⟩

/-- C8 (amended): `update` adds the canonical (Black-perspective) evaluation
with the sign keyed on the node's own player-to-move (`+v` at White-to-move
nodes, `−v` at Black-to-move nodes) and bumps the visit count; children
created by `expand` carry the opposite player of their parent, so along any
parent-child path the per-update increments have opposite signs (the sign
flips at every step); and selection does *not* negate on read:
`get_best_child` picks a child of maximal `ucb`, where `ucb` is the child's
own un-negated average value `total_value / visit_count` plus the
exploration term. -/
theorem C8_amended_value_convention (M : Oracle) :
    (∀ (n : Node) (v : ℚ),
      (n.update v).total_value =
        n.total_value + (match n.turn with | .white => v | .black => -v) ∧
      (n.update v).visit_count = n.visit_count + 1) ∧
    (∀ (n : Node) (b : Board), ∀ c ∈ expandChildren M n b, c.turn = n.turn.opposite) ∧
    (∀ (p c : Node) (v : ℚ), c.turn = p.turn.opposite →
      (c.update v).total_value - c.total_value =
        -((p.update v).total_value - p.total_value)) ∧
    (∀ (n : Node) (i : ℕ), n.get_best_child_idx M = some i →
      ∃ hi : i < n.children.length,
        ∀ j (hj : j < n.children.length),
          (n.children.get ⟨j, hj⟩).ucb M n.visit_count ≤
            (n.children.get ⟨i, hi⟩).ucb M n.visit_count) ∧
    (∀ (n : Node) (pv : ℕ),
      n.ucb M pv = n.value +
        (M.log10Q ((1 + (pv : ℚ) + C_BASE) / C_BASE) + C_INIT) * n.prior *
          M.sqrtQ (pv : ℚ) / (1 + (n.visit_count : ℚ)) ∧
      (n.visit_count ≠ 0 → n.value = n.total_value / (n.visit_count : ℚ))) := by
  refine ⟨?_, ?_, ?_, fun n i h => get_best_child_idx_is_max h, ?_⟩
  · intro n v
    refine ⟨?_, update_visit n v⟩
    rw [update_total]
    cases ht : n.turn
    · simp only [qadd_eq, qsub_eq]
      rw [sub_eq_add_neg]
    · simp only [qadd_eq, qsub_eq]
  · intro n b c hc
    unfold expandChildren at hc
    rw [List.mem_map] at hc
    obtain ⟨a, _, hceq⟩ := hc
    rw [← hceq]
    rfl
  · intro p c v hturn
    rw [update_total, update_total, hturn]
    cases hp : p.turn <;> simp only [Player.opposite, qadd_eq, qsub_eq] <;> ring
  · intro n pv
    constructor
    · unfold Node.ucb
      simp only [qadd_eq, qmul_eq, qdiv_eq]
    · intro hvc
      unfold Node.value
      rw [if_neg hvc, qdiv_eq]

theorem C8_witness :
    ((Node.mk none [] 0 0 0 Player.white).update 1).total_value =
      (Node.mk none [] 0 0 0 Player.white).total_value + 1 ∧
    ((Node.mk none [] 0 0 0 Player.white).update 1).total_value -
        (Node.mk none [] 0 0 0 Player.white).total_value =
      -(((Node.mk none [] 0 0 0 Player.black).update 1).total_value -
        (Node.mk none [] 0 0 0 Player.black).total_value) := by
  have h := C8_amended_value_convention
    { policies := fun _ _ => 0, value := fun _ => 0, sqrtQ := fun q => q, log10Q := fun q => q }
  constructor
  · exact (h.1 (Node.mk none [] 0 0 0 Player.white) 1).1
  · exact h.2.2.1 (Node.mk none [] 0 0 0 Player.black)
      (Node.mk none [] 0 0 0 Player.white) 1 rfl

/-! ### Claim C7 : lemmas -/

theorem treeSizeList_ge_of_mem : ∀ {l : List Node} {c : Node}, c ∈ l →
    c.treeSize ≤ treeSizeList l := by
  intro l
  induction l with
  | nil => intro c hc; cases hc
  | cons d rest ih =>
    intro c hc
    rw [treeSizeList]
    rcases List.mem_cons.mp hc with h | h
    · rw [h]; omega
    · have := ih h; omega

theorem heightList_ge_of_mem : ∀ {l : List Node} {c : Node}, c ∈ l →
    c.height ≤ heightList l := by
  intro l
  induction l with
  | nil => intro c hc; cases hc
  | cons d rest ih =>
    intro c hc
    rw [heightList]
    rcases List.mem_cons.mp hc with h | h
    · rw [h]; omega
    · have := ih h; omega

theorem heightList_le_treeSizeList {l : List Node}
    (h : ∀ c ∈ l, Node.height c ≤ Node.treeSize c) :
    heightList l ≤ treeSizeList l := by
  induction l with
  | nil => exact Nat.le_refl _
  | cons d rest ih =>
    rw [heightList, treeSizeList]
    have h1 := h d (List.mem_cons_self _ _)
    have h2 := ih fun c hc => h c (List.mem_cons_of_mem _ hc)
    omega

theorem height_le_treeSize_aux : ∀ (k : ℕ) (n : Node), n.treeSize ≤ k →
    n.height ≤ n.treeSize := by
  intro k
  induction k with
  | zero =>
    intro n h
    cases n with
    | mk a ch tv p vc t => rw [Node.treeSize] at h; omega
  | succ k ih =>
    intro n h
    cases n with
    | mk a ch tv p vc t =>
      rw [Node.treeSize] at h ⊢
      rw [Node.height]
      have hle : heightList ch ≤ treeSizeList ch := by
        apply heightList_le_treeSizeList
        intro c hc
        apply ih
        have := treeSizeList_ge_of_mem hc
        omega
      omega

theorem height_le_treeSize (n : Node) : n.height ≤ n.treeSize :=
  height_le_treeSize_aux n.treeSize n (Nat.le_refl _)

theorem height_pos (n : Node) : 1 ≤ n.height := by
  cases n with
  | mk a ch tv p vc t => rw [Node.height]; omega

theorem sum_set_nat : ∀ (l : List ℕ) (i x : ℕ) (h : i < l.length),
    (l.set i x).sum + l.get ⟨i, h⟩ = l.sum + x := by
  intro l
  induction l with
  | nil => intro i x h; simp at h
  | cons a rest ih =>
    intro i x h
    cases i with
    | zero => simp [List.set]; omega
    | succ j =>
      have hj : j < rest.length := by simpa using h
      have := ih j x hj
      simp only [List.set, List.sum_cons, List.get]
      omega

/-- Replacing one child by one with the same visit count (selection) or one
more visit (backpropagation) shifts the children visit sum accordingly. -/
theorem visitSum_set (ch : List Node) (i : ℕ) {c : Node} (c2 : Node) (h : ch[i]? = some c) :
    ((ch.set i c2).map fun x => x.visit_count).sum + c.visit_count
      = (ch.map fun x => x.visit_count).sum + c2.visit_count := by
  obtain ⟨hi, hget⟩ := List.getElem?_eq_some_iff.mp h
  rw [List.map_set]
  have hlen : i < (ch.map fun x => x.visit_count).length := by simpa using hi
  have := sum_set_nat (ch.map fun x => x.visit_count) i c2.visit_count hlen
  have hmap : (ch.map fun x => x.visit_count).get ⟨i, hlen⟩ = c.visit_count := by
    rw [List.get_eq_getElem, List.getElem_map, hget]
  omega

theorem expandChildren_fresh {M : Oracle} {n : Node} {b : Board} :
    ∀ c ∈ expandChildren M n b, c.children = [] ∧ c.visit_count = 0 := by
  intro c hc
  simp only [expandChildren, List.mem_map] at hc
  obtain ⟨a, _, rfl⟩ := hc
  exact ⟨rfl, rfl⟩

theorem invB_mk (b : Board) (r : Bool) (a : Option Action) (ch : List Node)
    (tv p : ℚ) (vc : ℕ) (t : Player) :
    invB b r (.mk a ch tv p vc t) =
      ((if ch.isEmpty then
        decide (vc = 0) || b.is_game_over || (legalList b).isEmpty
      else
        decide (vc = (ch.map fun c => c.visit_count).sum + (if r then 0 else 1)))
      && invBChildren b ch) := by
  rw [invB]

theorem invBChildren_cons (b : Board) (c : Node) (rest : List Node) :
    invBChildren b (c :: rest) =
      (invB (replayAction b c.action) false c && invBChildren b rest) := by
  rw [invBChildren]


theorem invB_elim_ne {b : Board} {r : Bool} {n : Node} (h : invB b r n = true)
    (hne : n.children ≠ []) :
    n.visit_count = childVisitSum n + (if r then 0 else 1) := by
  cases n with
  | mk a ch tv p vc t =>
    rw [invB_mk, Bool.and_eq_true] at h
    have hch : ch ≠ [] := hne
    rw [if_neg (by simpa [List.isEmpty_iff] using hch)] at h
    have := of_decide_eq_true h.1
    simpa [childVisitSum, Node.children, Node.visit_count] using this

theorem invB_elim_empty {b : Board} {r : Bool} {n : Node} (h : invB b r n = true)
    (he : n.children = []) :
    n.visit_count = 0 ∨ b.is_game_over = true ∨ legalList b = [] := by
  cases n with
  | mk a ch tv p vc t =>
    rw [invB_mk, Bool.and_eq_true] at h
    have hch : ch = [] := he
    rw [if_pos (by simpa [List.isEmpty_iff] using hch)] at h
    have h1 := h.1
    rw [Bool.or_eq_true, Bool.or_eq_true] at h1
    rcases h1 with (h2 | h2) | h2
    · exact Or.inl (of_decide_eq_true h2)
    · exact Or.inr (Or.inl h2)
    · exact Or.inr (Or.inr (by simpa [List.isEmpty_iff] using h2))

theorem invB_elim_children {b : Board} {r : Bool} {n : Node} (h : invB b r n = true) :
    invBChildren b n.children = true := by
  cases n with
  | mk a ch tv p vc t =>
    rw [invB_mk, Bool.and_eq_true] at h
    exact h.2

theorem invB_intro_ne {b : Board} {r : Bool} {a : Option Action} {ch : List Node}
    {tv p : ℚ} {vc : ℕ} {t : Player} (hne : ch ≠ [])
    (hv : vc = (ch.map fun c => c.visit_count).sum + (if r then 0 else 1))
    (hc : invBChildren b ch = true) :
    invB b r (.mk a ch tv p vc t) = true := by
  rw [invB_mk, Bool.and_eq_true]
  rw [if_neg (by simpa [List.isEmpty_iff] using hne)]
  exact ⟨decide_eq_true hv, hc⟩

theorem invB_intro_empty {b : Board} {r : Bool} {a : Option Action}
    {tv p : ℚ} {vc : ℕ} {t : Player}
    (h : vc = 0 ∨ b.is_game_over = true ∨ legalList b = []) :
    invB b r (.mk a [] tv p vc t) = true := by
  rw [invB_mk, Bool.and_eq_true]
  refine ⟨?_, by rw [invBChildren]⟩
  have hcond : (List.isEmpty ([] : List Node)) = true := rfl
  rw [if_pos hcond, Bool.or_eq_true, Bool.or_eq_true]
  rcases h with h2 | h2 | h2
  · exact Or.inl (Or.inl (decide_eq_true h2))
  · exact Or.inl (Or.inr h2)
  · exact Or.inr (by simpa [List.isEmpty_iff] using h2)

theorem invBChildren_get {b : Board} : ∀ {l : List Node}, invBChildren b l = true →
    ∀ (i : ℕ) (hi : i < l.length),
      invB (replayAction b (l.get ⟨i, hi⟩).action) false (l.get ⟨i, hi⟩) = true := by
  intro l
  induction l with
  | nil => intro _ i hi; simp at hi
  | cons c rest ih =>
    intro h i hi
    rw [invBChildren_cons, Bool.and_eq_true] at h
    cases i with
    | zero => exact h.1
    | succ j =>
      have hj : j < rest.length := by simpa using hi
      exact ih h.2 j hj

theorem invBChildren_of_get {b : Board} : ∀ {l : List Node},
    (∀ (i : ℕ) (hi : i < l.length),
      invB (replayAction b (l.get ⟨i, hi⟩).action) false (l.get ⟨i, hi⟩) = true) →
    invBChildren b l = true := by
  intro l
  induction l with
  | nil => intro _; rw [invBChildren]
  | cons c rest ih =>
    intro h
    rw [invBChildren_cons, Bool.and_eq_true]
    refine ⟨h 0 (by simp), ih ?_⟩
    intro i hi
    have hi2 : i + 1 < (c :: rest).length := by simpa using Nat.succ_lt_succ hi
    exact h (i + 1) hi2

theorem invBChildren_set {b : Board} {ch : List Node} {i : ℕ} {c c2 : Node}
    (hch : invBChildren b ch = true) (hgi : ch[i]? = some c)
    (hact : c2.action = c.action)
    (hc2 : invB (replayAction b c.action) false c2 = true) :
    invBChildren b (ch.set i c2) = true := by
  obtain ⟨hi, hget⟩ := List.getElem?_eq_some_iff.mp hgi
  apply invBChildren_of_get
  intro j hj
  have hjlen : j < ch.length := by simpa using hj
  rw [List.get_eq_getElem, List.getElem_set]
  split
  · rename_i hij
    subst hij
    rw [hact]
    exact hc2
  · have := invBChildren_get hch j hjlen
    simpa using this

theorem invBChildren_fresh {b : Board} : ∀ {l : List Node},
    (∀ c ∈ l, c.children = [] ∧ c.visit_count = 0) → invBChildren b l = true := by
  intro l
  induction l with
  | nil => intro _; rw [invBChildren]
  | cons c rest ih =>
    intro h
    rw [invBChildren_cons, Bool.and_eq_true]
    obtain ⟨h1, h2⟩ := h c (List.mem_cons_self _ _)
    refine ⟨?_, ih fun d hd => h d (List.mem_cons_of_mem _ hd)⟩
    cases c with
    | mk a ch tv p vc t =>
      have hch : ch = [] := h1
      have hvc : vc = 0 := h2
      subst hch hvc
      exact invB_intro_empty (Or.inl rfl)

theorem freshVisitSum {l : List Node}
    (h : ∀ c ∈ l, c.children = [] ∧ c.visit_count = 0) :
    (l.map fun c => c.visit_count).sum = 0 := by
  apply List.sum_eq_zero
  intro x hx
  simp only [List.mem_map] at hx
  obtain ⟨c, hc, rfl⟩ := hx
  exact (h c hc).2

theorem invB_withPrior (b : Board) (r : Bool) (c : Node) (p : ℚ) :
    invB b r (c.withPrior p) = invB b r c := by
  cases c with
  | mk a ch tv p0 vc t => rfl

theorem invBChildren_mapIdx_withPrior (b : Board) : ∀ (l : List Node) (f : ℕ → Node → ℚ),
    invBChildren b (l.mapIdx fun i c => c.withPrior (f i c)) = invBChildren b l := by
  intro l
  induction l with
  | nil => intro f; rfl
  | cons c rest ih =>
    intro f
    rw [List.mapIdx_cons, invBChildren_cons, invBChildren_cons,
      invB_withPrior, withPrior_action]
    rw [ih fun i x => f (i + 1) x]

theorem visitMap_mapIdx_withPrior : ∀ (l : List Node) (f : ℕ → Node → ℚ),
    ((l.mapIdx fun i c => c.withPrior (f i c)).map fun c => c.visit_count)
      = l.map fun c => c.visit_count := by
  intro l
  induction l with
  | nil => intro f; rfl
  | cons c rest ih =>
    intro f
    rw [List.mapIdx_cons, List.map_cons, List.map_cons, withPrior_visit]
    rw [ih fun i x => f (i + 1) x]

theorem invB_inject (b : Board) (noise : ℕ → ℚ) (n : Node) :
    invB b true (inject_exploration_noise noise n) = invB b true n := by
  unfold inject_exploration_noise
  split
  · rfl
  · cases n with
    | mk a ch tv p vc t =>
      have hch : Node.children (.mk a ch tv p vc t) = ch := rfl
      rw [hch]
      have hset : Node.setChildren (.mk a ch tv p vc t)
          (ch.mapIdx fun i c => c.withPrior
            (qadd (qmul (qsub 1 DIRICHLET_EPSILON) c.prior)
              (qmul DIRICHLET_EPSILON (noise i)))) =
          .mk a (ch.mapIdx fun i c => c.withPrior
            (qadd (qmul (qsub 1 DIRICHLET_EPSILON) c.prior)
              (qmul DIRICHLET_EPSILON (noise i)))) tv p vc t := rfl
      rw [hset, invB_mk, invB_mk,
        invBChildren_mapIdx_withPrior b ch
          (fun i c => qadd (qmul (qsub 1 DIRICHLET_EPSILON) c.prior)
            (qmul DIRICHLET_EPSILON (noise i))),
        visitMap_mapIdx_withPrior ch
          (fun i c => qadd (qmul (qsub 1 DIRICHLET_EPSILON) c.prior)
            (qmul DIRICHLET_EPSILON (noise i)))]
      have hemp : (ch.mapIdx fun i c => c.withPrior
          (qadd (qmul (qsub 1 DIRICHLET_EPSILON) c.prior)
            (qmul DIRICHLET_EPSILON (noise i)))).isEmpty = ch.isEmpty := by
        cases ch with
        | nil => rfl
        | cons c rest => rw [List.mapIdx_cons]; rfl
      rw [hemp]

theorem rootReady_inject (b : Board) (noise : ℕ → ℚ) (n : Node) :
    rootReady b (inject_exploration_noise noise n) = rootReady b n := by
  unfold inject_exploration_noise
  split
  · rfl
  · cases n with
    | mk a ch tv p vc t =>
      rw [rootReady, rootReady, setChildren_children]
      have hch : Node.children (.mk a ch tv p vc t) = ch := rfl
      rw [hch]
      have hemp : (ch.mapIdx fun i c => c.withPrior
          (qadd (qmul (qsub 1 DIRICHLET_EPSILON) c.prior)
            (qmul DIRICHLET_EPSILON (noise i)))).isEmpty = ch.isEmpty := by
        cases ch with
        | nil => rfl
        | cons c rest => rw [List.mapIdx_cons]; rfl
      rw [hemp]


theorem get_best_child_idx_getElem {M : Oracle} {n : Node} {i : ℕ}
    (h : n.get_best_child_idx M = some i) :
    n.children[i]? = some (n.children.get ⟨i, get_best_child_idx_lt h⟩) := by
  rw [List.getElem?_eq_some_iff]
  exact ⟨get_best_child_idx_lt h, rfl⟩

/-- Each iteration bumps the visited root's counter by one (the
`children[i]? = none` branch is unreachable: the selected index always
exists). -/
theorem iterateNodeF_visit (M : Oracle) (fuel : ℕ) (n : Node) (b : Board)
    (h : 1 ≤ fuel) :
    (iterateNodeF M fuel n b).1.visit_count = n.visit_count + 1 := by
  cases fuel with
  | zero => omega
  | succ f =>
    cases hbest : n.get_best_child_idx M with
    | none =>
      have hres : (iterateNodeF M (f + 1) n b).1 =
          (expandNode M n b).update (expandValue M b) := by
        simp only [iterateNodeF, hbest]
      rw [hres, update_visit, expandNode_visit]
    | some i =>
      have hc := get_best_child_idx_getElem hbest
      have hres : (iterateNodeF M (f + 1) n b).1 =
          (n.setChildren (n.children.set i
            (iterateNodeF M f (n.children.get ⟨i, get_best_child_idx_lt hbest⟩)
              (replayAction b (n.children.get ⟨i, get_best_child_idx_lt hbest⟩).action)).1)).update
            (iterateNodeF M f (n.children.get ⟨i, get_best_child_idx_lt hbest⟩)
              (replayAction b (n.children.get ⟨i, get_best_child_idx_lt hbest⟩).action)).2 := by
        simp only [iterateNodeF, hbest, hc]
      rw [hres, update_visit, setChildren_visit]

theorem iterateNodeF_children_ne (M : Oracle) (fuel : ℕ) (n : Node) (b : Board)
    (hne : n.children ≠ []) :
    (iterateNodeF M fuel n b).1.children ≠ [] := by
  cases fuel with
  | zero => exact hne
  | succ f =>
    cases hbest : n.get_best_child_idx M with
    | none => exact absurd (get_best_child_idx_none_iff.mp hbest) hne
    | some i =>
      have hc := get_best_child_idx_getElem hbest
      have hres : (iterateNodeF M (f + 1) n b).1 =
          (n.setChildren (n.children.set i
            (iterateNodeF M f (n.children.get ⟨i, get_best_child_idx_lt hbest⟩)
              (replayAction b (n.children.get ⟨i, get_best_child_idx_lt hbest⟩).action)).1)).update
            (iterateNodeF M f (n.children.get ⟨i, get_best_child_idx_lt hbest⟩)
              (replayAction b (n.children.get ⟨i, get_best_child_idx_lt hbest⟩).action)).2 := by
        simp only [iterateNodeF, hbest, hc]
      rw [hres, update_children, setChildren_children]
      intro hcon
      have := congrArg List.length hcon
      simp only [List.length_set, List.length_nil] at this
      exact hne (List.length_eq_zero.mp this)

theorem children_mk (a : Option Action) (ch : List Node) (tv p : ℚ) (vc : ℕ)
    (t : Player) : Node.children (.mk a ch tv p vc t) = ch := rfl

theorem setChildren_mk (a : Option Action) (ch l : List Node) (tv p : ℚ) (vc : ℕ)
    (t : Player) : Node.setChildren (.mk a ch tv p vc t) l = .mk a l tv p vc t := rfl

/-- `invB` never inspects the accumulated value, so `update` only matters
through the visit counter. -/
theorem invB_update (b : Board) (r : Bool) (a : Option Action) (ch : List Node)
    (tv p : ℚ) (vc : ℕ) (t : Player) (v : ℚ) :
    invB b r (Node.update (.mk a ch tv p vc t) v) = invB b r (.mk a ch tv p (vc + 1) t) := by
  cases t
  · rfl
  · rfl

/-- The C7 bookkeeping invariant is preserved by a full iteration
(selection, expansion, backpropagation), provided the fuel covers the tree
height and an unexpanded root only occurs on a board `expand` leaves
childless. -/
theorem invB_iterate (M : Oracle) : ∀ (fuel : ℕ) (n : Node) (b : Board) (r : Bool),
    n.height ≤ fuel → invB b r n = true →
    (r = true → rootReady b n = true) →
    invB b r (iterateNodeF M fuel n b).1 = true := by
  intro fuel
  induction fuel with
  | zero =>
    intro n b r hh
    have := height_pos n
    omega
  | succ f ih =>
    intro n b r hh hinv hroot
    cases n with
    | mk a ch tv p vc t =>
      cases hbest : Node.get_best_child_idx M (.mk a ch tv p vc t) with
      | none =>
        have hch2 : ch = [] := get_best_child_idx_none_iff.mp hbest
        subst hch2
        have hres : (iterateNodeF M (f + 1) (.mk a ([] : List Node) tv p vc t) b).1 =
            (expandNode M (.mk a ([] : List Node) tv p vc t) b).update (expandValue M b) := by
          simp only [iterateNodeF, hbest]
        rw [hres]
        have hempty : vc = 0 ∨ b.is_game_over = true ∨ legalList b = [] :=
          invB_elim_empty hinv rfl
        by_cases hover : b.is_game_over
        · rw [expandNode, if_pos hover, invB_update]
          exact invB_intro_empty (Or.inr (Or.inl hover))
        · rw [expandNode, if_neg hover]
          by_cases hleg : legalList b = []
          · have hec : expandChildren M (.mk a ([] : List Node) tv p vc t) b = [] := by
              rw [expandChildren, hleg]
              rfl
            rw [children_mk, hec, List.nil_append, setChildren_mk, invB_update]
            exact invB_intro_empty (Or.inr (Or.inr hleg))
          · cases r with
            | true =>
              have hready := hroot rfl
              rw [rootReady, children_mk] at hready
              simp only [List.isEmpty_nil, Bool.not_true, Bool.false_or,
                Bool.or_eq_true] at hready
              rcases hready with h2 | h2
              · exact absurd h2 hover
              · exact absurd (by simpa [List.isEmpty_iff] using h2) hleg
            | false =>
              have hvc : vc = 0 := by
                rcases hempty with h2 | h2 | h2
                · exact h2
                · exact absurd h2 hover
                · exact absurd h2 hleg
              subst hvc
              rw [children_mk, List.nil_append, setChildren_mk, invB_update]
              have hfresh := expandChildren_fresh (M := M)
                (n := .mk a ([] : List Node) tv p 0 t) (b := b)
              have hne : expandChildren M (.mk a ([] : List Node) tv p 0 t) b ≠ [] := by
                rw [expandChildren]
                intro hcon
                exact hleg (List.map_eq_nil_iff.mp hcon)
              apply invB_intro_ne hne
              · rw [freshVisitSum hfresh, if_neg Bool.false_ne_true]
              · exact invBChildren_fresh hfresh
      | some i =>
        have hi : i < ch.length := get_best_child_idx_lt hbest
        cases hgi : ch[i]? with
        | none =>
          rw [List.getElem?_eq_getElem hi] at hgi
          exact Option.noConfusion hgi
        | some c =>
          obtain ⟨hilen, hget⟩ := List.getElem?_eq_some_iff.mp hgi
          have hres : (iterateNodeF M (f + 1) (.mk a ch tv p vc t) b).1 =
              (Node.setChildren (.mk a ch tv p vc t)
                (ch.set i (iterateNodeF M f c (replayAction b c.action)).1)).update
                (iterateNodeF M f c (replayAction b c.action)).2 := by
            simp only [iterateNodeF, hbest, children_mk, hgi]
          rw [hres, setChildren_mk, invB_update]
          have hcmem : c ∈ ch := by
            rw [← hget]
            exact List.getElem_mem hilen
          have hhc : c.height ≤ f := by
            have h1 := heightList_ge_of_mem hcmem
            have h2 : Node.height (.mk a ch tv p vc t) = heightList ch + 1 := rfl
            rw [h2] at hh
            omega
          have hchinv : invBChildren b ch = true := invB_elim_children hinv
          have hcinv : invB (replayAction b c.action) false c = true := by
            have h2 := invBChildren_get hchinv i hi
            rw [List.get_eq_getElem, hget] at h2
            exact h2
          have hrec := ih c (replayAction b c.action) false hhc hcinv
            (fun hcon => Bool.noConfusion hcon)
          have hrecv : (iterateNodeF M f c (replayAction b c.action)).1.visit_count =
              c.visit_count + 1 := by
            apply iterateNodeF_visit
            have := height_pos c
            omega
          have hreca : (iterateNodeF M f c (replayAction b c.action)).1.action =
              c.action := (iterateNodeF_meta M f _ _).1
          have hvn : vc = (ch.map fun x => x.visit_count).sum + (if r = true then 0 else 1) :=
            invB_elim_ne hinv (by
              intro hcon
              have hcon2 : ch = [] := hcon
              rw [hcon2] at hi
              simp at hi)
          have hsetne : ch.set i (iterateNodeF M f c (replayAction b c.action)).1 ≠ [] := by
            intro hcon
            have := congrArg List.length hcon
            simp only [List.length_set, List.length_nil] at this
            rw [this] at hi
            simp at hi
          apply invB_intro_ne hsetne
          · have hsum := visitSum_set ch i
              (iterateNodeF M f c (replayAction b c.action)).1 hgi
            rw [hrecv] at hsum
            cases r with
            | true =>
              rw [if_pos rfl] at hvn ⊢
              omega
            | false =>
              rw [if_neg Bool.false_ne_true] at hvn ⊢
              omega
          · exact invBChildren_set hchinv hgi hreca hrec

theorem rootReady_iterate (M : Oracle) (fuel : ℕ) (n : Node) (b : Board)
    (h : rootReady b n = true) : rootReady b (iterateNodeF M fuel n b).1 = true := by
  rw [rootReady, Bool.or_assoc, Bool.or_eq_true] at h ⊢
  rcases h with h2 | h2
  · left
    have hne : n.children ≠ [] := by
      intro hcon
      rw [hcon] at h2
      simp at h2
    have := iterateNodeF_children_ne M fuel n b hne
    simpa [List.isEmpty_iff] using this
  · right
    exact h2


/-- The eager root expansion of `get_best_action`, followed by the noise
injection, establishes the C7 invariant and the root side condition. -/
theorem invB_searchRoot_base (M : Oracle) (noise : ℕ → ℚ) (b : Board) :
    invB b true (inject_exploration_noise noise
      (expandNode M (Node.new none b.turn 0) b)) = true ∧
    rootReady b (inject_exploration_noise noise
      (expandNode M (Node.new none b.turn 0) b)) = true := by
  rw [invB_inject, rootReady_inject]
  have hnew : Node.new none b.turn 0 = .mk none [] 0 0 0 b.turn := rfl
  rw [hnew]
  by_cases hover : b.is_game_over
  · rw [expandNode, if_pos hover]
    constructor
    · exact invB_intro_empty (Or.inr (Or.inl hover))
    · rw [rootReady, hover]
      simp
  · rw [expandNode, if_neg hover, children_mk, List.nil_append, setChildren_mk]
    by_cases hleg : legalList b = []
    · have hec : expandChildren M (.mk none ([] : List Node) 0 0 0 b.turn) b = [] := by
        rw [expandChildren, hleg]
        rfl
      rw [hec]
      constructor
      · exact invB_intro_empty (Or.inr (Or.inr hleg))
      · rw [rootReady]
        have hleg2 : (legalList b).isEmpty = true := by simpa [List.isEmpty_iff] using hleg
        rw [hleg2]
        simp
    · have hfresh := expandChildren_fresh (M := M)
        (n := .mk none ([] : List Node) 0 0 0 b.turn) (b := b)
      have hne : expandChildren M (.mk none ([] : List Node) 0 0 0 b.turn) b ≠ [] := by
        rw [expandChildren]
        intro hcon
        exact hleg (List.map_eq_nil_iff.mp hcon)
      constructor
      · apply invB_intro_ne hne
        · rw [freshVisitSum hfresh, if_pos rfl]
        · exact invBChildren_fresh hfresh
      · rw [rootReady, children_mk]
        have hne2 : (expandChildren M (.mk none ([] : List Node) 0 0 0 b.turn) b).isEmpty
            = false := by
          cases hc : expandChildren M (.mk none ([] : List Node) 0 0 0 b.turn) b with
          | nil => exact absurd hc hne
          | cons d rest => rfl
        rw [hne2]
        simp

/-- The C7 invariant and the root side condition hold after any number of
iterations from an invariant-satisfying root. -/
theorem invB_iterLoop (M : Oracle) (b : Board) : ∀ (m : ℕ) (r : Node),
    invB b true r = true → rootReady b r = true →
    invB b true (iterLoop M b m r) = true ∧ rootReady b (iterLoop M b m r) = true := by
  intro m
  induction m with
  | zero => intro r h1 h2; exact ⟨h1, h2⟩
  | succ k ih =>
    intro r h1 h2
    rw [iterLoop]
    apply ih
    · exact invB_iterate M r.treeSize r b true (height_le_treeSize r) h1 (fun _ => h2)
    · exact rootReady_iterate M r.treeSize r b h2

/-- The C7 invariant holds of the search root at the start of every
iteration of `get_best_action`. -/
theorem invB_searchRootAfter (M : Oracle) (noise : ℕ → ℚ) (b : Board) (m : ℕ) :
    invB b true (searchRootAfter M noise b m) = true ∧
    rootReady b (searchRootAfter M noise b m) = true := by
  rw [searchRootAfter]
  obtain ⟨h1, h2⟩ := invB_searchRoot_base M noise b
  exact invB_iterLoop M b m _ h1 h2


/-- Reading the invariant along a path below an invariant-satisfying node:
every descendant with children counts its children's visits plus one. -/
theorem invB_nodeAt_aux : ∀ (q : List ℕ) (n : Node) (b : Board),
    invB b false n = true →
    ∀ nq, nodeAt n q = some nq → nq.children ≠ [] →
    nq.visit_count = childVisitSum nq + 1 := by
  intro q
  induction q with
  | nil =>
    intro n b hinv nq hq hne
    have hq2 : n = nq := Option.some.inj hq
    subst hq2
    have := invB_elim_ne hinv hne
    rw [if_neg Bool.false_ne_true] at this
    exact this
  | cons i rest ih =>
    intro n b hinv nq hq hne
    cases n with
    | mk a ch tv p vc t =>
      rw [nodeAt] at hq
      cases hgi : (Node.children (.mk a ch tv p vc t))[i]? with
      | none =>
        rw [hgi] at hq
        exact Option.noConfusion hq
      | some c =>
        rw [hgi] at hq
        obtain ⟨hi, hget⟩ := List.getElem?_eq_some_iff.mp hgi
        have hchinv : invBChildren b ch := invB_elim_children hinv
        have hcinv : invB (replayAction b c.action) false c = true := by
          have h2 := invBChildren_get hchinv i hi
          rw [List.get_eq_getElem] at h2
          have hget2 : ch[i] = c := hget
          rw [hget2] at h2
          exact h2
        exact ih c (replayAction b c.action) hcinv nq hq hne

/-- The root invariant at a node with children, read off `invB`. -/
theorem invB_root_count {b : Board} {n : Node} (hinv : invB b true n = true)
    (hne : n.children ≠ []) : n.visit_count = childVisitSum n := by
  have := invB_elim_ne hinv hne
  rw [if_pos rfl] at this
  simpa using this

/-- Reading the invariant at a nonempty path below the root. -/
theorem invB_nodeAt {b : Board} {n : Node} (hinv : invB b true n = true) :
    ∀ (q : List ℕ) (nq : Node), q ≠ [] → nodeAt n q = some nq → nq.children ≠ [] →
    nq.visit_count = childVisitSum nq + 1 := by
  intro q nq hqne hq hne
  cases q with
  | nil => exact absurd rfl hqne
  | cons i rest =>
    cases n with
    | mk a ch tv p vc t =>
      rw [nodeAt] at hq
      cases hgi : (Node.children (.mk a ch tv p vc t))[i]? with
      | none =>
        rw [hgi] at hq
        exact Option.noConfusion hq
      | some c =>
        rw [hgi] at hq
        obtain ⟨hi, hget⟩ := List.getElem?_eq_some_iff.mp hgi
        have hchinv : invBChildren b ch := invB_elim_children hinv
        have hcinv : invB (replayAction b c.action) false c = true := by
          have h2 := invBChildren_get hchinv i hi
          rw [List.get_eq_getElem] at h2
          have hget2 : ch[i] = c := hget
          rw [hget2] at h2
          exact h2
        exact invB_nodeAt_aux rest c (replayAction b c.action) hcinv nq hq hne

/-- Selection and expansion never touch a visit counter. -/
theorem selectExpandNodeF_visit (M : Oracle) (fuel : ℕ) (n : Node) (b : Board) :
    (selectExpandNodeF M fuel n b).visit_count = n.visit_count := by
  cases fuel with
  | zero => rfl
  | succ f =>
    cases hbest : n.get_best_child_idx M with
    | none =>
      have hres : selectExpandNodeF M (f + 1) n b = expandNode M n b := by
        simp only [selectExpandNodeF, hbest]
      rw [hres, expandNode_visit]
    | some i =>
      cases hgi : n.children[i]? with
      | none =>
        have hres : selectExpandNodeF M (f + 1) n b = n := by
          simp only [selectExpandNodeF, hbest, hgi]
        rw [hres]
      | some c =>
        have hres : selectExpandNodeF M (f + 1) n b =
            n.setChildren (n.children.set i
              (selectExpandNodeF M f c (replayAction b c.action))) := by
          simp only [selectExpandNodeF, hbest, hgi]
        rw [hres, setChildren_visit]

/-- Off the selected path, the mid-search tree of claim C7 agrees with the
between-iterations tree in visit count, children visit sum, and having
children at all: selection only replaces one child subtree along the path,
and the expansion hangs fresh childless children below the path's end. -/
theorem selectExpandNodeF_offpath (M : Oracle) : ∀ (fuel : ℕ) (n : Node) (b : Board)
    (q : List ℕ) (nq : Node),
    q ≠ selectPathIdxF M fuel n b →
    nodeAt (selectExpandNodeF M fuel n b) q = some nq →
    nq.children ≠ [] →
    ∃ nq0, nodeAt n q = some nq0 ∧ nq0.children ≠ [] ∧
      nq.visit_count = nq0.visit_count ∧ childVisitSum nq = childVisitSum nq0 := by
  intro fuel
  induction fuel with
  | zero =>
    intro n b q nq hqp hq hne
    exact ⟨nq, hq, hne, rfl, rfl⟩
  | succ f ih =>
    intro n b q nq hqp hq hne
    cases hbest : n.get_best_child_idx M with
    | none =>
      have hch : n.children = [] := get_best_child_idx_none_iff.mp hbest
      have hsp : selectPathIdxF M (f + 1) n b = [] := by
        simp only [selectPathIdxF, hbest]
      rw [hsp] at hqp
      have hse : selectExpandNodeF M (f + 1) n b = expandNode M n b := by
        simp only [selectExpandNodeF, hbest]
      rw [hse] at hq
      by_cases hover : b.is_game_over
      · rw [expandNode, if_pos hover] at hq
        exact ⟨nq, hq, hne, rfl, rfl⟩
      · rw [expandNode, if_neg hover] at hq
        cases q with
        | nil => exact absurd rfl hqp
        | cons i rest =>
          rw [nodeAt, setChildren_children, hch, List.nil_append] at hq
          cases hgi : (expandChildren M n b)[i]? with
          | none =>
            rw [hgi] at hq
            exact Option.noConfusion hq
          | some c =>
            rw [hgi] at hq
            obtain ⟨hi, hget⟩ := List.getElem?_eq_some_iff.mp hgi
            have hcfresh := expandChildren_fresh (M := M) (n := n) (b := b) c
              (by rw [← hget]; exact List.getElem_mem hi)
            cases rest with
            | nil =>
              have hq2 : c = nq := Option.some.inj hq
              subst hq2
              exact absurd hcfresh.1 hne
            | cons j rest2 =>
              simp only [nodeAt, hcfresh.1] at hq
              exact Option.noConfusion hq
    | some i =>
      have hi := get_best_child_idx_lt hbest
      cases hgi : n.children[i]? with
      | none =>
        rw [List.getElem?_eq_getElem hi] at hgi
        exact Option.noConfusion hgi
      | some c =>
        obtain ⟨hilen, hget⟩ := List.getElem?_eq_some_iff.mp hgi
        have hsp : selectPathIdxF M (f + 1) n b =
            i :: selectPathIdxF M f c (replayAction b c.action) := by
          simp only [selectPathIdxF, hbest, hgi]
        have hse : selectExpandNodeF M (f + 1) n b =
            n.setChildren (n.children.set i
              (selectExpandNodeF M f c (replayAction b c.action))) := by
          simp only [selectExpandNodeF, hbest, hgi]
        rw [hsp] at hqp
        rw [hse] at hq
        cases q with
        | nil =>
          have hq2 : n.setChildren (n.children.set i
              (selectExpandNodeF M f c (replayAction b c.action))) = nq :=
            Option.some.inj hq
          subst hq2
          refine ⟨n, rfl, ?_, ?_, ?_⟩
          · intro hcon
            rw [hcon] at hi
            simp at hi
          · rw [setChildren_visit]
          · cases n with
            | mk a ch tv p vc t =>
              have hcvs : childVisitSum (Node.setChildren (.mk a ch tv p vc t)
                  ((Node.children (.mk a ch tv p vc t)).set i
                    (selectExpandNodeF M f c (replayAction b c.action)))) =
                  ((ch.set i (selectExpandNodeF M f c (replayAction b c.action))).map
                    fun x => x.visit_count).sum := rfl
              have hcvs2 : childVisitSum (.mk a ch tv p vc t) =
                  (ch.map fun x => x.visit_count).sum := rfl
              rw [hcvs, hcvs2]
              have hgi2 : ch[i]? = some c := hgi
              have hsum := visitSum_set ch i
                (selectExpandNodeF M f c (replayAction b c.action)) hgi2
              rw [selectExpandNodeF_visit] at hsum
              omega
        | cons j rest =>
          by_cases hj : j = i
          · subst hj
            have hset : (n.children.set j
                (selectExpandNodeF M f c (replayAction b c.action)))[j]? =
                some (selectExpandNodeF M f c (replayAction b c.action)) := by
              rw [List.getElem?_eq_some_iff]
              refine ⟨by simpa using hi, ?_⟩
              rw [List.getElem_set]
              rw [if_pos rfl]
            rw [nodeAt, setChildren_children, hset] at hq
            have hrne : rest ≠ selectPathIdxF M f c (replayAction b c.action) := by
              intro hcon
              exact hqp (by rw [hcon])
            obtain ⟨nq0, h1, h2, h3, h4⟩ := ih c (replayAction b c.action) rest nq hrne hq hne
            refine ⟨nq0, ?_, h2, h3, h4⟩
            rw [nodeAt, hgi]
            exact h1
          · rw [nodeAt, setChildren_children] at hq
            have hset : (n.children.set i
                (selectExpandNodeF M f c (replayAction b c.action)))[j]? =
                n.children[j]? := by
              rw [List.getElem?_set_ne]
              exact fun hcon => hj hcon.symm
            rw [hset] at hq
            cases hgj : n.children[j]? with
            | none =>
              rw [hgj] at hq
              exact Option.noConfusion hq
            | some d =>
              rw [hgj] at hq
              refine ⟨nq, ?_, hne, rfl, rfl⟩
              rw [nodeAt, hgj]
              exact hq


/-- C7, amended (claim C7): at the mid-search instant of any iteration of
`get_best_action` — selection and expansion done, backpropagation not yet
applied — every node with at least one child satisfies
`visit_count = Σ children visit_count + 1`, EXCEPT the root and the node at
the selected path (the just-expanded node): the root satisfies the plain
`visit_count = Σ children visit_count`, because the evaluation of the eager
root expansion is discarded and never backpropagated. -/
theorem C7_amended_visit_invariant (M : Oracle) (noise : ℕ → ℚ) (b : Board) (m : ℕ) :
    (∀ (q : List ℕ) (nq : Node),
      nodeAt (selectExpandNode M (searchRootAfter M noise b m) b) q = some nq →
      nq.children ≠ [] → q ≠ [] →
      q ≠ selectPathIdx M (searchRootAfter M noise b m) b →
      nq.visit_count = childVisitSum nq + 1) ∧
    ((selectExpandNode M (searchRootAfter M noise b m) b).children ≠ [] →
      (selectExpandNode M (searchRootAfter M noise b m) b).visit_count =
        childVisitSum (selectExpandNode M (searchRootAfter M noise b m) b)) := by
  obtain ⟨hinv, _⟩ := invB_searchRootAfter M noise b m
  constructor
  · intro q nq hq hne hqnil hqsp
    rw [selectExpandNode] at hq
    rw [selectPathIdx] at hqsp
    obtain ⟨nq0, h1, h2, h3, h4⟩ :=
      selectExpandNodeF_offpath M (searchRootAfter M noise b m).treeSize
        (searchRootAfter M noise b m) b q nq hqsp hq hne
    rw [h3, h4]
    exact invB_nodeAt hinv q nq0 hqnil h1 h2
  · intro hne
    by_cases hsp : selectPathIdx M (searchRootAfter M noise b m) b = []
    · -- the root itself is the expanded leaf: it was unvisited with no
      -- children, and the fresh children all carry zero visits
      rw [selectPathIdx] at hsp
      rw [selectExpandNode] at hne ⊢
      cases hts : (searchRootAfter M noise b m).treeSize with
      | zero =>
        have h1 := height_pos (searchRootAfter M noise b m)
        have h2 := height_le_treeSize (searchRootAfter M noise b m)
        omega
      | succ f =>
        rw [hts] at hsp hne
        cases hbest : (searchRootAfter M noise b m).get_best_child_idx M with
        | none =>
          have hch : (searchRootAfter M noise b m).children = [] :=
            get_best_child_idx_none_iff.mp hbest
          have hse : selectExpandNodeF M (f + 1) (searchRootAfter M noise b m) b =
              expandNode M (searchRootAfter M noise b m) b := by
            simp only [selectExpandNodeF, hbest]
          rw [hse] at hne ⊢
          by_cases hover : b.is_game_over
          · rw [expandNode, if_pos hover] at hne
            exact absurd hch hne
          · have hempty := invB_elim_empty hinv hch
            rw [expandNode, if_neg hover] at hne ⊢
            have hleg : legalList b ≠ [] := by
              intro hcon
              rw [setChildren_children, hch, List.nil_append] at hne
              rw [expandChildren, hcon] at hne
              exact hne rfl
            have hvc : (searchRootAfter M noise b m).visit_count = 0 := by
              rcases hempty with h2 | h2 | h2
              · exact h2
              · exact absurd h2 hover
              · exact absurd h2 hleg
            have hfresh := expandChildren_fresh (M := M)
              (n := searchRootAfter M noise b m) (b := b)
            cases hroot : searchRootAfter M noise b m with
            | mk a ch tv p vc t =>
              have hch2 : ch = [] := by rw [hroot] at hch; exact hch
              subst hch2
              have hvc2 : vc = 0 := by rw [hroot] at hvc; exact hvc
              subst hvc2
              rw [hroot] at hfresh
              rw [children_mk, List.nil_append, setChildren_mk]
              have hcvs : childVisitSum (.mk a
                  (expandChildren M (.mk a ([] : List Node) tv p 0 t) b) tv p 0 t) =
                  ((expandChildren M (.mk a ([] : List Node) tv p 0 t) b).map
                    fun x => x.visit_count).sum := rfl
              rw [hcvs, freshVisitSum hfresh]
              rfl
        | some i =>
          have hi := get_best_child_idx_lt hbest
          cases hgi : (searchRootAfter M noise b m).children[i]? with
          | none =>
            rw [List.getElem?_eq_getElem hi] at hgi
            exact Option.noConfusion hgi
          | some c =>
            have : selectPathIdxF M (f + 1) (searchRootAfter M noise b m) b =
                i :: selectPathIdxF M f c (replayAction b c.action) := by
              simp only [selectPathIdxF, hbest, hgi]
            rw [this] at hsp
            exact List.noConfusion hsp
    · -- the selected path is below the root, so the root is off it
      rw [selectPathIdx] at hsp
      rw [selectExpandNode] at hne ⊢
      obtain ⟨nq0, h1, h2, h3, h4⟩ :=
        selectExpandNodeF_offpath M (searchRootAfter M noise b m).treeSize
          (searchRootAfter M noise b m) b [] _ (fun hcon => hsp hcon.symm) rfl hne
      have h5 : nq0 = searchRootAfter M noise b m := (Option.some.inj h1).symm
      subst h5
      rw [h3, h4]
      exact invB_root_count hinv h2


/-- C7 counterexample: on a fresh 2×2 board (2-in-a-row), at the mid-search
instant of the very first iteration of `get_best_action` (the leaf
expansion has completed, its backpropagation has not run), the root has
four materialized children but a visit count of 0, not 0 + 1: the eagerly
expanded root's evaluation is discarded, so the root's counter always
equals the plain sum of its children's counters. -/
theorem C7_counterexample :
    (selectExpandNode oracleC7 (searchRootAfter oracleC7 (fun _ => 1) (Board.new 2 2) 0)
      (Board.new 2 2)).children.length = 4 ∧
    (selectExpandNode oracleC7 (searchRootAfter oracleC7 (fun _ => 1) (Board.new 2 2) 0)
      (Board.new 2 2)).visit_count ≠
      childVisitSum (selectExpandNode oracleC7
        (searchRootAfter oracleC7 (fun _ => 1) (Board.new 2 2) 0) (Board.new 2 2)) + 1 := by
  decide

/-- Closed instance of the amended C7 invariant: on a 2×2 board after one
iteration, at the mid-search instant of the second iteration, the expanded
non-root node reached by child index 0 (off the selected path) counts its
children's visits plus one, while the root counts the plain sum. -/
theorem C7_witness :
    ((nodeAt (selectExpandNode oracleC7 (searchRootAfter oracleC7 (fun _ => 1)
        (Board.new 2 2) 1) (Board.new 2 2)) [0]).getD
        (Node.new none Player.black 0)).visit_count =
      childVisitSum ((nodeAt (selectExpandNode oracleC7 (searchRootAfter oracleC7 (fun _ => 1)
        (Board.new 2 2) 1) (Board.new 2 2)) [0]).getD
        (Node.new none Player.black 0)) + 1 ∧
    (selectExpandNode oracleC7 (searchRootAfter oracleC7 (fun _ => 1)
        (Board.new 2 2) 1) (Board.new 2 2)).visit_count =
      childVisitSum (selectExpandNode oracleC7 (searchRootAfter oracleC7 (fun _ => 1)
        (Board.new 2 2) 1) (Board.new 2 2)) := by
  have hq0 : ((nodeAt (selectExpandNode oracleC7 (searchRootAfter oracleC7 (fun _ => 1)
      (Board.new 2 2) 1) (Board.new 2 2)) [0]).getD
      (Node.new none Player.black 0)).children.isEmpty = false := by decide
  have hr0 : (selectExpandNode oracleC7 (searchRootAfter oracleC7 (fun _ => 1)
      (Board.new 2 2) 1) (Board.new 2 2)).children.isEmpty = false := by decide
  constructor
  · apply (C7_amended_visit_invariant oracleC7 (fun _ => 1) (Board.new 2 2) 1).1 [0]
    · rfl
    · intro hc
      rw [hc] at hq0
      exact Bool.noConfusion hq0
    · decide
    · decide
  · apply (C7_amended_visit_invariant oracleC7 (fun _ => 1) (Board.new 2 2) 1).2
    intro hc
    rw [hc] at hr0
    exact Bool.noConfusion hr0

end Gomoku
